import Mathlib

/-!
Verification of the Wandr AI service layer (`src/services/ai.ts` and the
activity-log module): the resilient JSON extractor (`parseJSON`,
`extractBalanced`), the generation router (`callGeneration`), the multimodal
content builder (`buildClaudeContent`), the itinerary post-processing, and the
activity-event protocol of the domain generation functions.

The TypeScript is shallowly embedded: strings are `List Char` / `String`,
`JSON.parse` is modelled by an executable parser of the JSON grammar
(`ws value ws`), the two markdown-fence regexes of `parseJSON` are modelled
including JavaScript's multiline-anchor semantics (where `\n`, `\r`, U+2028 and
U+2029 are line terminators and `\s` includes all of them), and external
effects (HTTP transports, `atob`, the random id generator) are oracle
parameters.
-/

namespace Wandr

/-! ### Character classes

`jsonWs` is the whitespace of the JSON grammar (what `JSON.parse` skips).
`jsWs` is JavaScript's `\s` / `String.trim` whitespace, a strict superset.
`isLineTerm` is JavaScript's LineTerminator set, relevant for the `m`-flagged
anchors `^` and `$` in the fence-stripping regexes. -/

def jsonWs (c : Char) : Bool :=
  c = ' ' || c = '\t' || c = '\n' || c = '\r'

def isLineTerm (c : Char) : Bool :=
  c.toNat = 0xa || c.toNat = 0xd || c.toNat = 0x2028 || c.toNat = 0x2029

def jsWs (c : Char) : Bool :=
  c.toNat = 0x20 || c.toNat = 0x9 || c.toNat = 0xa || c.toNat = 0xb ||
  c.toNat = 0xc || c.toNat = 0xd || c.toNat = 0xa0 || c.toNat = 0x1680 ||
  (0x2000 ≤ c.toNat && c.toNat ≤ 0x200a) || c.toNat = 0x2028 || c.toNat = 0x2029 ||
  c.toNat = 0x202f || c.toNat = 0x205f || c.toNat = 0x3000 || c.toNat = 0xfeff

/-! ### JSON values

String and number atoms keep the raw token characters (undecoded): the claims
never depend on escape decoding, and raw equality is finer than (hence implies)
decoded equality. Object fields are kept in source order; the parser, like
`JSON.parse`, accepts duplicate keys. -/

inductive JValue where
  | null : JValue
  | bool (b : Bool) : JValue
  | num (raw : List Char) : JValue
  | str (raw : List Char) : JValue
  | arr (elems : List JValue) : JValue
  | obj (fields : List (List Char × JValue)) : JValue
deriving Repr

/-- Property lookup `v.k` on a parsed value: defined on objects, `none`
(i.e. `undefined`) otherwise. First binding wins, matching lookup order on a
plain model; the claims never involve duplicate keys. -/
def JValue.getField (v : JValue) (k : List Char) : Option JValue :=
  match v with
  | .obj fields =>
    match fields.find? (fun f => f.1 = k) with
    | some f => some f.2
    | none => none
  | _ => none

/-! ### The JSON parser (model of `JSON.parse`)

Implements the grammar `JSONText := ws value ws`: outer JSON whitespace is
stripped, then the value must span the whole remainder.  Inside, whitespace is
skipped around structural tokens exactly as the grammar allows.  Strings
reject raw control characters (below 0x20) and malformed escapes; numbers
follow the JSON number grammar.  Recursion is fuelled; one unit of fuel is
consumed per structural opener or separator, so `length + 1` always
suffices. -/

def skipWs (l : List Char) : List Char := l.dropWhile jsonWs

def isHex (c : Char) : Bool :=
  c.isDigit || ('a' ≤ c && c ≤ 'f') || ('A' ≤ c && c ≤ 'F')

/-- String body after the opening quote: returns the raw (undecoded) content
and the rest after the closing quote. -/
def parseStrBody : List Char → Option (List Char × List Char)
  | [] => none
  | c :: rest =>
    if c = '"' then some ([], rest)
    else if c = '\\' then
      match rest with
      | [] => none
      | e :: rest2 =>
        if e = 'u' then
          match rest2 with
          | h1 :: h2 :: h3 :: h4 :: rest4 =>
            if isHex h1 && isHex h2 && isHex h3 && isHex h4 then
              match parseStrBody rest4 with
              | some (s, r) => some ('\\' :: 'u' :: h1 :: h2 :: h3 :: h4 :: s, r)
              | none => none
            else none
          | _ => none
        else if e = '"' || e = '\\' || e = '/' || e = 'b' || e = 'f' || e = 'n' ||
                e = 'r' || e = 't' then
          match parseStrBody rest2 with
          | some (s, r) => some ('\\' :: e :: s, r)
          | none => none
        else none
    else if c.toNat < 32 then none
    else
      match parseStrBody rest with
      | some (s, r) => some (c :: s, r)
      | none => none

/-- Optional exponent part of a number token; `acc` is the token so far. -/
def parseExpPart (acc : List Char) (l : List Char) : Option (List Char × List Char) :=
  match l with
  | c :: t =>
    if c = 'e' || c = 'E' then
      let (sg, t1) :=
        match t with
        | s :: t2 => if s = '+' || s = '-' then ([s], t2) else (([] : List Char), s :: t2)
        | [] => ([], [])
      let ds := t1.takeWhile Char.isDigit
      let t2 := t1.dropWhile Char.isDigit
      if ds = [] then none else some (acc ++ c :: (sg ++ ds), t2)
    else some (acc, l)
  | [] => some (acc, l)

/-- Optional fraction part (then exponent) of a number token. -/
def parseFracPart (acc : List Char) (l : List Char) : Option (List Char × List Char) :=
  match l with
  | '.' :: t =>
    if t.takeWhile Char.isDigit = [] then none
    else parseExpPart (acc ++ '.' :: t.takeWhile Char.isDigit) (t.dropWhile Char.isDigit)
  | _ => parseExpPart acc l

/-- JSON number token after the optional minus sign:
`0 | [1-9][0-9]*` then fraction and exponent. -/
def parseNumTail (sgn : List Char) (l1 : List Char) : Option (List Char × List Char) :=
  match l1 with
  | c :: t =>
    if c = '0' then parseFracPart (sgn ++ ['0']) t
    else if c.isDigit then
      parseFracPart (sgn ++ c :: t.takeWhile Char.isDigit) (t.dropWhile Char.isDigit)
    else none
  | [] => none

/-- JSON number token: `-? (0 | [1-9][0-9]*) frac? exp?`. -/
def parseNumber (l : List Char) : Option (List Char × List Char) :=
  match l with
  | '-' :: t => parseNumTail ['-'] t
  | _ => parseNumTail [] l

/-- One step of the value parser, abstracted over the element/member
parsers (tied by fuel in `parseVal` below). -/
def valStep (pe : List Char → Option (List JValue × List Char))
    (pm : List Char → Option (List (List Char × JValue) × List Char))
    (l : List Char) : Option (JValue × List Char) :=
  match l with
  | [] => none
  | c :: t =>
    if c = '"' then
      match parseStrBody t with
      | some (s, r) => some (.str s, r)
      | none => none
    else if c = '{' then
      match skipWs t with
      | '}' :: r => some (.obj [], r)
      | t1 =>
        match pm t1 with
        | some (fs, r) => some (.obj fs, r)
        | none => none
    else if c = '[' then
      match skipWs t with
      | ']' :: r => some (.arr [], r)
      | t1 =>
        match pe t1 with
        | some (es, r) => some (.arr es, r)
        | none => none
    else if c = 't' then
      match t with
      | 'r' :: 'u' :: 'e' :: r => some (.bool true, r)
      | _ => none
    else if c = 'f' then
      match t with
      | 'a' :: 'l' :: 's' :: 'e' :: r => some (.bool false, r)
      | _ => none
    else if c = 'n' then
      match t with
      | 'u' :: 'l' :: 'l' :: r => some (.null, r)
      | _ => none
    else
      match parseNumber (c :: t) with
      | some (raw, r) => some (.num raw, r)
      | none => none

/-- One step of the array-element loop (`value (ws (, elems | ]))`). -/
def elemsStep (pv : List Char → Option (JValue × List Char))
    (pe : List Char → Option (List JValue × List Char))
    (l : List Char) : Option (List JValue × List Char) :=
  match pv (skipWs l) with
  | none => none
  | some (v, r) =>
    match skipWs r with
    | ',' :: r2 =>
      match pe r2 with
      | some (es, r3) => some (v :: es, r3)
      | none => none
    | ']' :: r2 => some ([v], r2)
    | _ => none

/-- One step of the object-member loop (`ws string ws : ws value ws (, | BRC)`). -/
def membersStep (pv : List Char → Option (JValue × List Char))
    (pm : List Char → Option (List (List Char × JValue) × List Char))
    (l : List Char) : Option (List (List Char × JValue) × List Char) :=
  match skipWs l with
  | '"' :: t =>
    match parseStrBody t with
    | none => none
    | some (k, r) =>
      match skipWs r with
      | ':' :: r2 =>
        match pv (skipWs r2) with
        | none => none
        | some (v, r3) =>
          match skipWs r3 with
          | ',' :: r4 =>
            match pm r4 with
            | some (fs, r5) => some ((k, v) :: fs, r5)
            | none => none
          | '}' :: r4 => some ([(k, v)], r4)
          | _ => none
      | _ => none
  | _ => none

mutual

def parseVal : Nat → List Char → Option (JValue × List Char)
  | 0, _ => none
  | fuel + 1, l => valStep (parseElems fuel) (parseMembers fuel) l

def parseElems : Nat → List Char → Option (List JValue × List Char)
  | 0, _ => none
  | fuel + 1, l => elemsStep (parseVal fuel) (parseElems fuel) l

def parseMembers : Nat → List Char → Option (List (List Char × JValue) × List Char)
  | 0, _ => none
  | fuel + 1, l => membersStep (parseVal fuel) (parseMembers fuel) l

end

/-- Strip a trailing run of characters satisfying `p`. -/
def dropTrail (p : Char → Bool) (l : List Char) : List Char :=
  (l.reverse.dropWhile p).reverse

/-- Strip leading and trailing runs of characters satisfying `p`. -/
def stripEnds (p : Char → Bool) (l : List Char) : List Char :=
  dropTrail p (l.dropWhile p)

/-- Model of `JSON.parse`: parse the grammar `ws value ws`, i.e. strip outer
JSON whitespace and require the value to span the remainder exactly. -/
def jsonParse (s : String) : Option JValue :=
  match parseVal ((stripEnds jsonWs s.data).length + 1) (stripEnds jsonWs s.data) with
  | some (v, []) => some v
  | _ => none

/-! ### Markdown fence stripping (the two regex replaces of `parseJSON`)

`parseJSON` first computes
`raw.replace(RE1, '').replace(RE2, '').trim()` where `RE1` is the
multiline-anchored `^BBB(?:json|JSON)?\s*` and `RE2` is `BBB\s*$`
(`BBB` = three backticks), each a non-global regex replacing its leftmost
match only.  With the `m` flag, `^` matches at the string start and after any
LineTerminator, and `$` matches at the string end and before any
LineTerminator; `\s` is `jsWs`.  The models scan left to right for the first
match and delete exactly the matched characters. -/

def backticks3 : List Char := ['`', '`', '`']

/-- After the three opening backticks: consume an optional `json`/`JSON`
and then the greedy `\s*` run. -/
def stripAfterTicks (t : List Char) : List Char :=
  let t1 :=
    if t.take 4 = ['j', 's', 'o', 'n'] || t.take 4 = ['J', 'S', 'O', 'N'] then t.drop 4
    else t
  t1.dropWhile jsWs

/-- Scan for a fence opener at a position following a LineTerminator. -/
def replFence1Go : List Char → List Char
  | [] => []
  | c :: t =>
    if isLineTerm c && t.take 3 = backticks3 then c :: stripAfterTicks (t.drop 3)
    else c :: replFence1Go t

/-- Model of `.replace(/^BBB(?:json|JSON)?\s*%2Fm, '')` (first match only). -/
def replFence1 (l : List Char) : List Char :=
  if l.take 3 = backticks3 then stripAfterTicks (l.drop 3) else replFence1Go l

/-- Match length of `\s*$` right after three backticks: the greedy `\s*`
takes the maximal whitespace run, then backtracks to the largest prefix of it
whose end sits at the string end or before a LineTerminator. -/
def fence2K (u : List Char) : Option Nat :=
  if u.dropWhile jsWs = [] then some (u.takeWhile jsWs).length
  else
    match (u.takeWhile jsWs).reverse.findIdx? isLineTerm with
    | some i => some ((u.takeWhile jsWs).length - 1 - i)
    | none => none

/-- Model of `.replace(/BBB\s*$%2Fm, '')` (first match only). -/
def replFence2 : List Char → List Char
  | [] => []
  | c :: t =>
    if c = '`' && t.take 2 = ['`', '`'] then
      match fence2K (t.drop 2) with
      | some k => (t.drop 2).drop k
      | none => c :: replFence2 t
    else c :: replFence2 t

/-- Model of JavaScript `String.prototype.trim`. -/
def trimJS (l : List Char) : List Char := stripEnds jsWs l

/-! ### `extractBalanced` and `parseJSON` (ai.ts lines 163-210) -/

/-- The scan loop of `extractBalanced`: walks the remaining characters with a
depth counter and an in-string flag, skipping the character after a backslash
inside a string; returns the number of characters up to and including the
close bracket that brings the depth to zero. -/
def ebGo (o cl : Char) : List Char → Int → Bool → Option Nat
  | [], _, _ => none
  | ch :: t, depth, inStr =>
    if inStr then
      if ch = '\\' then
        match t with
        | [] => none
        | _ :: t2 => (ebGo o cl t2 depth true).map (· + 2)
      else if ch = '"' then (ebGo o cl t depth false).map (· + 1)
      else (ebGo o cl t depth true).map (· + 1)
    else if ch = '"' then (ebGo o cl t depth true).map (· + 1)
    else if ch = o then (ebGo o cl t (depth + 1) false).map (· + 1)
    else if ch = cl then
      if depth - 1 = 0 then some 1
      else (ebGo o cl t (depth - 1) false).map (· + 1)
    else (ebGo o cl t depth false).map (· + 1)

/-- `extractBalanced(text, start, open, close)`: the balanced slice
`text.slice(start, i + 1)` when the walk closes, `null` otherwise. -/
def extractBalanced (text : String) (start : Nat) (o cl : Char) : Option String :=
  (ebGo o cl (text.data.drop start) 0 false).map
    (fun n => String.mk ((text.data.drop start).take n))

/-- The candidate starting points of `parseJSON`: the leftmost brace and
bracket positions, ordered by first occurrence (stable for the impossible
tie). -/
def mkPairs (l : List Char) : List (Nat × Char × Char) :=
  let po := (l.findIdx? (fun x => x = '\x7b')).map (fun i => (i, '\x7b', '\x7d'))
  let pa := (l.findIdx? (fun x => x = '[')).map (fun i => (i, '[', ']'))
  match po, pa with
  | none, none => []
  | some p, none => [p]
  | none, some a => [a]
  | some p, some a => if p.1 <= a.1 then [p, a] else [a, p]

/-- Inner loop of `parseJSON`: try each starting point, extract a balanced
slice and parse it. -/
def tryPairs (cand : String) : List (Nat × Char × Char) → Option JValue
  | [] => none
  | (start, o, cl) :: rest =>
    match extractBalanced cand start o cl with
    | none => tryPairs cand rest
    | some ex =>
      match jsonParse ex with
      | some v => some v
      | none => tryPairs cand rest

/-- One candidate of `parseJSON`: direct parse first, then the
balanced-bracket extraction at the leftmost-first starting points. -/
def tryCandidate (cand : String) : Option JValue :=
  match jsonParse cand with
  | some v => some v
  | none => tryPairs cand (mkPairs cand.data)

def fmtErr : String := "AI returned an unexpected format. Please try again."

/-- `parseJSON` (ai.ts 180-210): strip fences and trim to get the `stripped`
candidate, then try `stripped` and `raw` in order; throw the user-facing
format error when everything fails. -/
def parseJSON (raw : String) : Except String JValue :=
  match tryCandidate (String.mk (trimJS (replFence2 (replFence1 raw.data)))) with
  | some v => Except.ok v
  | none =>
    match tryCandidate raw with
    | some v => Except.ok v
    | none => Except.error fmtErr

/-! ### Why the fence regexes cannot fire on valid JSON (without U+2028/U+2029)

A backtick can occur in JSON text only inside a string literal.  String
literals contain no raw control characters, so the character before any
backtick is never CR/LF, and scanning right from any backtick one meets the
closing quote before any CR/LF.  `Qtick` packages exactly this; it is closed
under concatenation and holds for every token the parser consumes. -/

def noNl (l : List Char) : Prop := ∀ x ∈ l, x ≠ '\n' ∧ x ≠ '\r'

def Qtick (s : List Char) : Prop :=
  ∀ a b, s = a ++ '`' :: b →
    (a ≠ [] ∧ ∀ a2 c, a = a2 ++ [c] → c ≠ '\n' ∧ c ≠ '\r') ∧
    ∃ pre post, b = pre ++ '"' :: post ∧ noNl pre

/-- Characters a JSON number token may contain. -/
def numChar (x : Char) : Bool :=
  x = '-' || x = '+' || x = '.' || x = 'e' || x = 'E' || x.isDigit

/-- The consumed prefix of a successful value parse: nonempty, bounded by
non-whitespace characters, and with all backticks guarded (`Qtick`). -/
def ValChunk (L R C : List Char) : Prop :=
  L = C ++ R ∧ C ≠ [] ∧ (∀ x, C.head? = some x → jsWs x = false) ∧
  (∀ x, C.getLast? = some x → jsWs x = false) ∧ Qtick C

/-- The consumed prefix of a successful element/member loop: ends in the
given close bracket and has all backticks guarded. -/
def CloseChunk (cl : Char) (L R C : List Char) : Prop :=
  L = C ++ R ∧ C.getLast? = some cl ∧ Qtick C

/-! ### A reference state machine for the balanced-bracket scan (C10)

`extractBalanced` walks with an index jump after a backslash.  The reference
machine processes one character at a time, carrying an explicit skip flag;
`neverBalanced` says the walk never closes the opening bracket. -/

structure ScanSt where
  depth : Int
  inStr : Bool
  skip : Bool
deriving Repr, DecidableEq

/-- One transition of the reference scanner; the Bool reports whether this
character closed the structure (depth returned to zero outside a string). -/
def scanStep (o cl : Char) (st : ScanSt) (ch : Char) : ScanSt × Bool :=
  if st.skip then (⟨st.depth, st.inStr, false⟩, false)
  else if st.inStr then
    if ch = '\\' then (⟨st.depth, true, true⟩, false)
    else if ch = '"' then (⟨st.depth, false, false⟩, false)
    else (⟨st.depth, true, false⟩, false)
  else if ch = '"' then (⟨st.depth, true, false⟩, false)
  else if ch = o then (⟨st.depth + 1, false, false⟩, false)
  else if ch = cl then (⟨st.depth - 1, false, false⟩, decide (st.depth - 1 = 0))
  else (⟨st.depth, false, false⟩, false)

/-- Whether the scan ever closes the structure. -/
def scanCloses (o cl : Char) : ScanSt → List Char → Bool
  | _, [] => false
  | st, ch :: t =>
    (scanStep o cl st ch).2 || scanCloses o cl (scanStep o cl st ch).1 t

/-- The opening bracket at `start` is never balanced by a matching close
bracket outside string literals. -/
def neverBalanced (text : String) (start : Nat) (o cl : Char) : Prop :=
  scanCloses o cl ⟨0, false, false⟩ (text.data.drop start) = false

/-! ### `asArray` (ai.ts 151-159): unwrap arrays the model wrapped in an
object -/

def firstNonEmptyArr : List (List Char × JValue) → Option (List JValue)
  | [] => none
  | (_, v) :: rest =>
    match v with
    | .arr xs => if xs.length > 0 then some xs else firstNonEmptyArr rest
    | _ => firstNonEmptyArr rest

def asArray (parsed : JValue) : Except String (List JValue) :=
  match parsed with
  | .arr xs => .ok xs
  | .obj fields =>
    match firstNonEmptyArr fields with
    | some xs => .ok xs
    | none => .error fmtErr
  | _ => .error fmtErr

/-! ### Calendar dates

`generateItinerary` derives each day's date as
`new Date(trip.startDate + 'T12:00:00')`, `d.setDate(d.getDate() + i)`,
`d.toISOString().split('T')[0]`.  Anchored at noon this is pure civil-date
addition on a `YYYY-MM-DD` string; an unparseable date makes `toISOString`
throw `Invalid time value`. -/

def isLeap (y : Nat) : Bool := (y % 4 = 0 && y % 100 ≠ 0) || y % 400 = 0

def daysInMonth (y m : Nat) : Nat :=
  if m = 2 then (if isLeap y then 29 else 28)
  else if m = 4 || m = 6 || m = 9 || m = 11 then 30
  else 31

def nextDay : Nat × Nat × Nat → Nat × Nat × Nat
  | (y, m, d) =>
    if d < daysInMonth y m then (y, m, d + 1)
    else if m < 12 then (y, m + 1, 1)
    else (y + 1, 1, 1)

def addDays (ymd : Nat × Nat × Nat) : Nat → Nat × Nat × Nat
  | 0 => ymd
  | n + 1 => addDays (nextDay ymd) n

def digitVal (c : Char) : Nat := c.toNat - 48

def parseYMD (s : String) : Option (Nat × Nat × Nat) :=
  match s.data with
  | [y1, y2, y3, y4, '-', m1, m2, '-', d1, d2] =>
    if y1.isDigit && y2.isDigit && y3.isDigit && y4.isDigit &&
       m1.isDigit && m2.isDigit && d1.isDigit && d2.isDigit then
      let y := ((digitVal y1 * 10 + digitVal y2) * 10 + digitVal y3) * 10 + digitVal y4
      let m := digitVal m1 * 10 + digitVal m2
      let d := digitVal d1 * 10 + digitVal d2
      if 1 ≤ m && m ≤ 12 && 1 ≤ d && d ≤ daysInMonth y m then some (y, m, d)
      else none
    else none
  | _ => none

def pad2 (n : Nat) : String := if n < 10 then "0" ++ toString n else toString n

def pad4 (n : Nat) : String :=
  if n < 10 then "000" ++ toString n
  else if n < 100 then "00" ++ toString n
  else if n < 1000 then "0" ++ toString n
  else toString n

def formatYMD : Nat × Nat × Nat → String
  | (y, m, d) => pad4 y ++ "-" ++ pad2 m ++ "-" ++ pad2 d

def dateAddISO (startDate : String) (i : Nat) : Except String String :=
  match parseYMD startDate with
  | some ymd => .ok (formatYMD (addDays ymd i))
  | none => .error "Invalid time value"

/-- Day count `Math.ceil((end - start) / 86_400_000) + 1`: both dates parse
at UTC midnight so the quotient is exact; unparseable dates give `NaN`. -/
def rataDie (y m d : Nat) : Int :=
  let ya : Int := if m ≤ 2 then (y : Int) - 1 else (y : Int)
  let mp : Int := if m ≤ 2 then (m : Int) + 9 else (m : Int) - 3
  let era : Int := ya.fdiv 400
  let yoe : Int := ya - era * 400
  let doy : Int := (153 * mp + 2).fdiv 5 + (d : Int) - 1
  let doe : Int := yoe * 365 + yoe.fdiv 4 - yoe.fdiv 100 + doy
  era * 146097 + doe

def tripDaysCount (startDate endDate : String) : Option Int :=
  match parseYMD startDate, parseYMD endDate with
  | some (ys, ms, ds), some (ye, me, de) =>
    some (rataDie ye me de - rataDie ys ms ds + 1)
  | _, _ => none

def showDays (o : Option Int) : String :=
  match o with
  | some n => toString n
  | none => "NaN"

/-! ### Itinerary post-processing (ai.ts 303-315) -/

def JValue.isNull : JValue → Bool
  | .null => true
  | _ => false

/-- Fields contributed by JavaScript object spread `...day`. -/
def spreadFields : JValue → List (List Char × JValue)
  | .obj fs => fs
  | .arr xs => (xs.enum.map (fun p => ((toString p.1).data, p.2)))
  | .str raw => (raw.enum.map (fun p => ((toString p.1).data, JValue.str [p.2])))
  | _ => []

/-- Property assignment after spread: update an existing key in place, else
append. -/
def setOrAppend (k : List Char) (v : JValue) : List (List Char × JValue) →
    List (List Char × JValue)
  | [] => [(k, v)]
  | (k2, v2) :: rest =>
    if k2 = k then (k, v) :: rest else (k2, v2) :: setOrAppend k v rest

/-- `{ ...day, date: <recomputed>, activities: Array.isArray(day.activities) ?
day.activities : [] }` for the day at index `i`. -/
def itineraryPostDay (startDate : String) (i : Nat) (day : JValue) :
    Except String JValue := do
  let date ← dateAddISO startDate i
  let acts : List JValue :=
    match day.getField "activities".data with
    | some (.arr xs) => xs
    | _ => []
  pure (.obj (setOrAppend "activities".data (.arr acts)
    (setOrAppend "date".data (.str date.data) (spreadFields day))))

/-- `.filter((day) => day != null).map((day, i) => ...)`. -/
def itineraryPost (startDate : String) (days : List JValue) :
    Except String (List JValue) :=
  ((days.filter (fun d => ! d.isNull)).enum.mapM
    (fun p => itineraryPostDay startDate p.1 p.2))

def countActivities (days : List JValue) : Nat :=
  days.foldl (fun n d =>
    n + (match d.getField "activities".data with
         | some (.arr xs) => xs.length
         | _ => 0)) 0

/-! ### Trip context and Claude content blocks (types/index.ts, ai.ts 91-127)

`atob` (base64 decoding, a Web API) is an oracle parameter: `none` models a
thrown `InvalidCharacterError`. -/

structure TripContextFile where
  id : String
  name : String
  mimeType : String
  dataBase64 : String
  previewUrl : Option String
  size : Nat
deriving DecidableEq, Repr

structure TripContext where
  text : Option String
  files : Option (List TripContextFile)
deriving DecidableEq, Repr

inductive ClaudeContentBlock where
  | text (text : String)
  | image (mediaType : String) (data : String)
  | document (data : String)
deriving DecidableEq, Repr

/-- `string | ClaudeContentBlock[]`. -/
inductive ClaudeContent where
  | plain (s : String)
  | blocks (bs : List ClaudeContentBlock)
deriving DecidableEq, Repr

/-- JS truthiness of `context?.text`: `undefined` and `''` are falsy. -/
def strTruthy : Option String → Bool
  | none => false
  | some s => !s.isEmpty

def ctxText : Option TripContext → Option String
  | none => none
  | some c => c.text

/-- `context?.files`, and `context.files ?? []`. -/
def ctxFiles : Option TripContext → List TripContextFile
  | none => []
  | some c => c.files.getD []

/-- `f.mimeType.startsWith('image/')`, on the underlying character lists. -/
def isImage (f : TripContextFile) : Bool := "image/".data.isPrefixOf f.mimeType.data

def isPdf (f : TripContextFile) : Bool := f.mimeType = "application/pdf"

def isTextLike (f : TripContextFile) : Bool :=
  f.mimeType = "text/plain" || f.mimeType = "text/markdown"

/-- `if (context.text) enriched += \x60User notes: ...\n\n\x60`. -/
def notesPart (text : Option String) : String :=
  match text with
  | some t => if t.isEmpty then "" else "User notes: " ++ t ++ "\n\n"
  | none => ""

/-- `for (const f of txtFiles) try \x7b ... += \x60--- name ---\n...\n\n\x60 \x7d
catch \x7b /* skip */ \x7d`. -/
def decodeConcat (atob : String → Option String) (txtFiles : List TripContextFile) :
    String :=
  txtFiles.foldl (fun acc f =>
    match atob f.dataBase64 with
    | some txt => acc ++ "--- " ++ f.name ++ " ---\n" ++ txt ++ "\n\n"
    | none => acc) ""

def buildClaudeContent (atob : String → Option String) (prompt : String)
    (context : Option TripContext) : ClaudeContent :=
  if !strTruthy (ctxText context) && (ctxFiles context).isEmpty then
    .plain prompt
  else
    let files := ctxFiles context
    let imgFiles := files.filter isImage
    let pdfFiles := files.filter isPdf
    let txtFiles := files.filter isTextLike
    if imgFiles.isEmpty && pdfFiles.isEmpty then
      .plain (notesPart (ctxText context) ++ decodeConcat atob txtFiles ++ prompt)
    else
      .blocks
        (imgFiles.map (fun f => ClaudeContentBlock.image f.mimeType f.dataBase64) ++
         pdfFiles.map (fun f => ClaudeContentBlock.document f.dataBase64) ++
         [ClaudeContentBlock.text
           (notesPart (ctxText context) ++ decodeConcat atob txtFiles ++ prompt)])

/-! ### The routing helper `callGeneration` (part_005 lines 181-215)

The transports are oracles: `claudeResp` is what `await callClaude(...)`
produces (`.error msg` models a thrown `Error` with that message) and
`pplxResp` likewise for `callPerplexity`.  The returned list records the
transport calls made, in order.  The `logActivity(\x7b message: 'Claude key
invalid — using Perplexity' \x7d)` side call is display-only and not part of
the result. -/

inductive TransportCall where
  | claude (content : ClaudeContent) (system : String)
  | pplx (userContent : String) (system : String)
deriving DecidableEq, Repr

def TransportCall.isClaude : TransportCall → Bool
  | .claude _ _ => true
  | .pplx _ _ => false

def includesAux (sub : List Char) : List Char → Bool
  | [] => sub.isEmpty
  | c :: t => sub.isPrefixOf (c :: t) || includesAux sub t

/-- JS `s.includes(sub)`. -/
def strIncludes (s sub : String) : Bool := includesAux sub.data s.data

/-- `msg.includes('Invalid Claude API key') || msg.includes('401')`. -/
def isAuthError (msg : String) : Bool :=
  strIncludes msg "Invalid Claude API key" || strIncludes msg "401"

/-- The Perplexity user message: `enriched = prompt`, notes prepended when
truthy, then decoded text-like file sections prepended before that.  Images
and PDFs are never consulted. -/
def fallbackEnriched (atob : String → Option String) (prompt : String)
    (context : Option TripContext) : String :=
  let enriched :=
    if strTruthy (ctxText context) then
      "User notes: " ++ (ctxText context).getD "" ++ "\n\n" ++ prompt
    else prompt
  let txtFiles := (ctxFiles context).filter isTextLike
  if txtFiles.isEmpty then enriched else decodeConcat atob txtFiles ++ enriched

def callGeneration (atob : String → Option String)
    (claudeResp pplxResp : Except String String) (prompt system : String)
    (anthropicKey perplexityKey : String) (context : Option TripContext) :
    Except String String × List TransportCall :=
  if anthropicKey.isEmpty then
    (pplxResp, [.pplx (fallbackEnriched atob prompt context) system])
  else
    match claudeResp with
    | .ok t => (.ok t, [.claude (buildClaudeContent atob prompt context) system])
    | .error e =>
      if !isAuthError e || perplexityKey.isEmpty then
        (.error e, [.claude (buildClaudeContent atob prompt context) system])
      else
        (pplxResp,
         [.claude (buildClaudeContent atob prompt context) system,
          .pplx (fallbackEnriched atob prompt context) system])

/-! ### Activity log (part_005 lines 27-50, current version) and the domain
functions (ai.ts 212-442)

`logActivity(entry, id?)` returns `id ?? nanoid()`; `fresh` stands for the
`nanoid()` draw.  The entry's wall-clock `timestamp` is not modelled — no
claim mentions it. -/

inductive AStatus where
  | pending
  | success
  | error
deriving DecidableEq, Repr

structure ActivityEntry where
  id : String
  message : String
  detail : Option String
  status : AStatus
deriving DecidableEq, Repr

def logActivity (message : String) (detail : Option String) (status : AStatus)
    (id : Option String) (fresh : String) : String × ActivityEntry :=
  match id with
  | some i => (i, ⟨i, message, detail, status⟩)
  | none => (fresh, ⟨fresh, message, detail, status⟩)

/-- The Claude-only generation helper of the current ai.ts (lines 133-145):
no key is a config error, otherwise the transport's outcome is returned. -/
def callGenerationClaudeOnly (claudeResp : Except String String)
    (anthropicKey : String) : Except String String :=
  if anthropicKey.isEmpty then
    .error "An Anthropic (Claude) API key is required to generate content. Please add it in Settings."
  else claudeResp

/-- Display of `$\x7bv\x7d` in a template string (messages only; numeric and
nested-array rendering approximated — no claim depends on these strings). -/
def jsShow : Option JValue → String
  | none => "undefined"
  | some .null => "null"
  | some (.bool b) => if b then "true" else "false"
  | some (.num raw) => String.mk raw
  | some (.str raw) => String.mk raw
  | some (.arr _) => ""
  | some (.obj _) => "[object Object]"

structure Trip where
  destination : String
  startDate : String
  endDate : String
  interests : List String
  budget : Nat
  travelers : Nat
  currency : String
  notes : Option String

/-- `generateTripDetails` (ai.ts 221-264): pending event, Claude-only
generation, `parseJSON`, then a success or error event under the same
`actId`. -/
def generateTripDetails (claudeResp : Except String String)
    (anthropicKey destination fresh : String) :
    Except String JValue × List ActivityEntry :=
  match logActivity ("Creating trip to " ++ destination ++ "…") none
      AStatus.pending none fresh with
  | (actId, e0) =>
    match (callGenerationClaudeOnly claudeResp anthropicKey).bind parseJSON with
    | .ok result =>
      (.ok result,
       [e0, (logActivity ("Trip \"" ++ jsShow (result.getField "name".data) ++ "\" created")
         none AStatus.success (some actId) fresh).2])
    | .error msg =>
      (.error msg,
       [e0, (logActivity "Failed to create trip" (some msg) AStatus.error
         (some actId) fresh).2])

/-- `generateItinerary` (ai.ts 268-326): pending event, Claude-only
generation, `parseJSON`, `asArray`, the filter/map post-processing, then a
terminal event under the same `actId`.  Date strings are modelled as strict
`YYYY-MM-DD` or unparseable (`<input type="date">` only ever yields the
former), so the date pre-computation before the `try` cannot throw. -/
def generateItinerary (claudeResp : Except String String) (trip : Trip)
    (anthropicKey fresh : String) :
    Except String (List JValue) × List ActivityEntry :=
  match logActivity ("Generating " ++ showDays (tripDaysCount trip.startDate trip.endDate) ++
      "-day itinerary for " ++ trip.destination ++ "…") none AStatus.pending none fresh with
  | (actId, e0) =>
    match (do
        let text ← callGenerationClaudeOnly claudeResp anthropicKey
        let parsed ← parseJSON text
        let days ← asArray parsed
        itineraryPost trip.startDate days) with
    | .ok result =>
      (.ok result,
       [e0, (logActivity ("Itinerary ready — " ++ toString result.length ++ " days, " ++
         toString (countActivities result) ++ " activities") none AStatus.success
         (some actId) fresh).2])
    | .error msg =>
      (.error msg,
       [e0, (logActivity "Failed to generate itinerary" (some msg) AStatus.error
         (some actId) fresh).2])

/-- `generatePackingList` (ai.ts 330-364). -/
def generatePackingList (claudeResp : Except String String) (trip : Trip)
    (anthropicKey fresh : String) :
    Except String (List JValue) × List ActivityEntry :=
  match logActivity ("Generating packing list for " ++ trip.destination ++ "…") none
      AStatus.pending none fresh with
  | (actId, e0) =>
    match (do
        let text ← callGenerationClaudeOnly claudeResp anthropicKey
        let parsed ← parseJSON text
        asArray parsed) with
    | .ok result =>
      (.ok result,
       [e0, (logActivity ("Packing list ready — " ++ toString result.length ++ " items")
         none AStatus.success (some actId) fresh).2])
    | .error msg =>
      (.error msg,
       [e0, (logActivity "Failed to generate packing list" (some msg) AStatus.error
         (some actId) fresh).2])

/-- `chatAboutTrip` (ai.ts 368-414): Claude when
`(attachments?.length || !perplexityKey) && anthropicKey`, else Perplexity;
the same pending/terminal event protocol. -/
def chatAboutTrip (claudeResp pplxResp : Except String String)
    (perplexityKey : String) (anthropicKey : Option String)
    (attachments : Option (List TripContextFile)) (fresh : String) :
    Except String String × List ActivityEntry :=
  match logActivity "AI assistant responding…" none AStatus.pending none fresh with
  | (actId, e0) =>
    match (if (!(attachments.getD []).isEmpty || perplexityKey.isEmpty) &&
        !(anthropicKey.getD "").isEmpty then claudeResp else pplxResp) with
    | .ok result =>
      (.ok result,
       [e0, (logActivity "AI assistant replied" none AStatus.success (some actId) fresh).2])
    | .error msg =>
      (.error msg,
       [e0, (logActivity "AI chat error" (some msg) AStatus.error (some actId) fresh).2])

/-- `searchTravel` (ai.ts 418-442): straight to Perplexity. -/
def searchTravel (pplxResp : Except String String) (fresh : String) :
    Except String String × List ActivityEntry :=
  match logActivity "Searching travel info…" none AStatus.pending none fresh with
  | (actId, e0) =>
    match pplxResp with
    | .ok result =>
      (.ok result,
       [e0, (logActivity "Search complete" none AStatus.success (some actId) fresh).2])
    | .error msg =>
      (.error msg,
       [e0, (logActivity "Search failed" (some msg) AStatus.error (some actId) fresh).2])

/-- The pending-then-terminal activity protocol of one domain call: exactly
two events, the first pending, the terminal one under the same id, success
on `.ok`, error with `detail = message` on `.error`. -/
def eventProtocolOk {α : Type} (p : Except String α × List ActivityEntry) : Bool :=
  match p.2 with
  | [e0, e1] =>
    decide (e0.status = AStatus.pending) && decide (e1.id = e0.id) &&
    (match p.1 with
     | .ok _ => decide (e1.status = AStatus.success) && decide (e1.detail = none)
     | .error msg =>
       decide (e1.status = AStatus.error) && decide (e1.detail = some msg))
  | _ => false

/-! ## Theorems -/

/-- Every JSON whitespace character is JavaScript whitespace. -/
theorem jsonWs_le_jsWs {c : Char} (h : jsonWs c = true) : jsWs c = true := by
  simp only [jsonWs, Bool.or_eq_true, decide_eq_true_eq] at h
  rcases h with ((h | h) | h) | h <;> subst h <;> decide

theorem last_of_append {u w a2 : List Char} {c : Char} (hw : w ≠ [])
    (h : u ++ w = a2 ++ [c]) : ∃ w2, w = w2 ++ [c] := by
  rcases w.eq_nil_or_concat with rfl | ⟨w2, x, hww⟩
  · exact absurd rfl hw
  · rw [List.concat_eq_append] at hww
    subst hww
    have h1 : (u ++ (w2 ++ [x])).getLast? = some x := by
      rw [List.getLast?_append_of_ne_nil _ (by simp), List.getLast?_concat]
    rw [h, List.getLast?_concat] at h1
    exact ⟨w2, by rw [Option.some_inj.mp h1]⟩

theorem Qtick_append {u v : List Char} (hu : Qtick u) (hv : Qtick v) :
    Qtick (u ++ v) := by
  intro a b hab
  rcases List.append_eq_append_iff.mp hab with ⟨w, hw1, hw2⟩ | ⟨w, hw1, hw2⟩
  · -- a = u ++ w and v = w ++ backtick :: b : the backtick lies inside v
    have hv2 := hv w b hw2
    subst hw1
    refine ⟨⟨?_, ?_⟩, hv2.2⟩
    · intro h
      exact hv2.1.1 (List.append_eq_nil.mp h).2
    · intro a2 c hc
      obtain ⟨w2, hww⟩ := last_of_append hv2.1.1 hc
      exact hv2.1.2 w2 c hww
  · -- u = a ++ w and backtick :: b = w ++ v
    match w, hw1, hw2 with
    | [], hw1, hw2 =>
      have hveq : v = '`' :: b := by rw [List.nil_append] at hw2; exact hw2.symm
      have := (hv [] b (by rw [List.nil_append]; exact hveq)).1.1
      exact absurd rfl this
    | w0 :: w1, hw1, hw2 =>
      simp only [List.cons_append, List.cons.injEq] at hw2
      obtain ⟨rfl, hb⟩ := hw2
      have hu2 := hu a w1 hw1
      obtain ⟨pre, post, hsp, hnl⟩ := hu2.2
      exact ⟨hu2.1, pre, post ++ v, by rw [hb, hsp]; simp, hnl⟩

theorem Qtick_of_no_tick {s : List Char} (h : ∀ x ∈ s, x ≠ '`') : Qtick s := by
  intro a b hab
  have : '`' ∈ s := by rw [hab]; simp
  exact absurd rfl (h _ this)

theorem Qtick_string_token {s : List Char} (h : noNl s) :
    Qtick ('"' :: (s ++ ['"'])) := by
  intro a b hab
  match a, hab with
  | [], hab => simp at hab
  | a0 :: a1, hab =>
    simp only [List.cons_append, List.cons.injEq] at hab
    obtain ⟨rfl, hab⟩ := hab
    rcases List.append_eq_append_iff.mp hab with ⟨w, hw1, hw2⟩ | ⟨w, hw1, hw2⟩
    · -- the backtick would have to live inside the closing quote singleton
      match w, hw2 with
      | [], hw2 => simp at hw2
      | w0 :: w1, hw2 => simp at hw2
    · match w, hw2 with
      | [], hw2 => simp at hw2
      | w0 :: w1, hw2 =>
        simp only [List.cons_append, List.cons.injEq] at hw2
        obtain ⟨rfl, hb⟩ := hw2
        constructor
        · refine ⟨by simp, ?_⟩
          intro a2 c hc
          have hcm : c ∈ '"' :: a1 := by rw [hc]; simp
          have hcs : c = '"' ∨ c ∈ s := by
            rcases List.mem_cons.mp hcm with h1 | h1
            · exact Or.inl h1
            · exact Or.inr (by rw [hw1]; exact List.mem_append_left _ h1)
          rcases hcs with rfl | hs
          · exact ⟨by decide, by decide⟩
          · exact h c hs
        · refine ⟨w1, [], by simpa using hb, ?_⟩
          intro x hx
          have hxs : x ∈ s := by
            rw [hw1]
            exact List.mem_append_right _ (by simp [hx])
          exact h x hxs

/-! ### Character-class facts -/

theorem toNat_facts_of_jsWs {x : Char} (h : jsWs x = true) :
    x.toNat = 32 ∨ x.toNat = 9 ∨ x.toNat = 10 ∨ x.toNat = 11 ∨ x.toNat = 12 ∨
    x.toNat = 13 ∨ 160 ≤ x.toNat := by
  simp only [jsWs, Bool.or_eq_true, decide_eq_true_eq, Bool.and_eq_true] at h
  omega

theorem jsWs_false_of_printable {x : Char} (h1 : 33 ≤ x.toNat) (h2 : x.toNat ≤ 126) :
    jsWs x = false := by
  cases hw : jsWs x with
  | false => rfl
  | true =>
    have := toNat_facts_of_jsWs hw
    omega

theorem isDigit_toNat {x : Char} (h : x.isDigit = true) : 48 ≤ x.toNat ∧ x.toNat ≤ 57 := by
  simpa [Char.isDigit] using h

theorem isDigit_not_jsWs {x : Char} (h : x.isDigit = true) : jsWs x = false := by
  obtain ⟨h1, h2⟩ := isDigit_toNat h
  exact jsWs_false_of_printable (by omega) (by omega)

theorem numChar_not_jsWs {x : Char} (h : numChar x = true) : jsWs x = false := by
  simp only [numChar, Bool.or_eq_true, decide_eq_true_eq] at h
  rcases h with ((((h | h) | h) | h) | h) | h
  · subst h; decide
  · subst h; decide
  · subst h; decide
  · subst h; decide
  · subst h; decide
  · exact isDigit_not_jsWs h

theorem numChar_not_tick {x : Char} (h : numChar x = true) : x ≠ '`' := by
  rintro rfl
  exact absurd h (by decide)

theorem numChar_noNl {x : Char} (h : numChar x = true) : x ≠ '\n' ∧ x ≠ '\r' := by
  constructor <;> rintro rfl <;> exact absurd h (by decide)

/-! ### Token-level parser specifications -/

/-- `parseStrBody` consumes exactly the raw content followed by the closing
quote, and the content contains no raw CR or LF. -/
theorem parseStrBody_spec (t : List Char) : ∀ s r, parseStrBody t = some (s, r) →
    t = s ++ '"' :: r ∧ noNl s := by
  induction t using parseStrBody.induct with
  | case1 =>
    intro s r hp
    rw [parseStrBody.eq_def] at hp
    simp at hp
  | case2 rest2 =>
    intro s r hp
    rw [parseStrBody.eq_def] at hp
    simp only [if_pos rfl, Option.some.injEq, Prod.mk.injEq] at hp
    obtain ⟨rfl, rfl⟩ := hp
    exact ⟨rfl, fun x hx => by simp at hx⟩
  | case3 =>
    intro s r hp
    rw [parseStrBody.eq_def] at hp
    simp at hp
  | case4 h1 h2 h3 h4 rest4 hhex s0 r0 hrec hne ih =>
    intro s r hp
    rw [parseStrBody.eq_def] at hp
    simp only [Bool.and_eq_true] at hhex
    obtain ⟨⟨⟨hh1, hh2⟩, hh3⟩, hh4⟩ := hhex
    simp only [hh1, hh2, hh3, hh4, hrec, Bool.and_self, if_true, reduceCtorEq,
      reduceIte, Option.some.injEq, Prod.mk.injEq] at hp
    obtain ⟨rfl, rfl⟩ := hp
    obtain ⟨hteq, hnl⟩ := ih s0 r0 hrec
    refine ⟨by simp [hteq], ?_⟩
    intro x hx
    simp only [List.mem_cons] at hx
    rcases hx with rfl | rfl | rfl | rfl | rfl | rfl | hx
    · exact ⟨by decide, by decide⟩
    · exact ⟨by decide, by decide⟩
    · constructor <;> rintro rfl <;> exact absurd hh1 (by decide)
    · constructor <;> rintro rfl <;> exact absurd hh2 (by decide)
    · constructor <;> rintro rfl <;> exact absurd hh3 (by decide)
    · constructor <;> rintro rfl <;> exact absurd hh4 (by decide)
    · exact hnl x hx
  | case5 h1 h2 h3 h4 rest4 hhex hrec hne ih =>
    intro s r hp
    rw [parseStrBody.eq_def] at hp
    simp [hhex, hrec] at hp
  | case6 h1 h2 h3 h4 rest4 hhex hne =>
    intro s r hp
    rw [parseStrBody.eq_def] at hp
    simp [hhex] at hp
  | case7 rest2 hshort hne =>
    intro s r hp
    rw [parseStrBody.eq_def] at hp
    match rest2, hshort with
    | [], _ => simp at hp
    | [a], _ => simp at hp
    | [a, b], _ => simp at hp
    | [a, b, c], _ => simp at hp
    | a :: b :: c :: d :: t2, hshort => exact (hshort a b c d t2 rfl).elim
  | case8 e rest2 hnu hesc s0 r0 hrec hne ih =>
    intro s r hp
    rw [parseStrBody.eq_def] at hp
    simp only [hnu, hesc, hrec, if_false, if_true, reduceCtorEq, reduceIte,
      Option.some.injEq, Prod.mk.injEq] at hp
    obtain ⟨rfl, rfl⟩ := hp
    obtain ⟨hteq, hnl⟩ := ih s0 r0 hrec
    refine ⟨by simp [hteq], ?_⟩
    intro x hx
    simp only [List.mem_cons] at hx
    rcases hx with rfl | rfl | hx
    · exact ⟨by decide, by decide⟩
    · simp only [Bool.or_eq_true, decide_eq_true_eq] at hesc
      rcases hesc with ((((((h | h) | h) | h) | h) | h) | h) | h <;> subst h <;>
        exact ⟨by decide, by decide⟩
    · exact hnl x hx
  | case9 e rest2 hnu hesc hrec hne ih =>
    intro s r hp
    rw [parseStrBody.eq_def] at hp
    simp [hnu, hesc, hrec] at hp
  | case10 e rest2 hnu hesc hne =>
    intro s r hp
    rw [parseStrBody.eq_def] at hp
    simp [hnu, hesc] at hp
  | case11 e rest2 hq hbs hctl =>
    intro s r hp
    rw [parseStrBody.eq_def] at hp
    simp [hq, hbs, hctl] at hp
  | case12 e rest2 hq hbs hctl s0 r0 hrec ih =>
    intro s r hp
    rw [parseStrBody.eq_def] at hp
    simp only [hq, hbs, hctl, hrec, if_false, reduceCtorEq, reduceIte,
      Option.some.injEq, Prod.mk.injEq] at hp
    obtain ⟨rfl, rfl⟩ := hp
    obtain ⟨hteq, hnl⟩ := ih s0 r0 hrec
    refine ⟨by simp [hteq], ?_⟩
    intro x hx
    simp only [List.mem_cons] at hx
    rcases hx with rfl | hx
    · constructor <;> rintro rfl <;> exact hctl (by decide)
    · exact hnl x hx
  | case13 e rest2 hq hbs hctl hrec ih =>
    intro s r hp
    rw [parseStrBody.eq_def] at hp
    simp [hq, hbs, hctl, hrec] at hp

theorem parseExpPart_spec (acc l tok r : List Char)
    (hp : parseExpPart acc l = some (tok, r)) :
    ∃ add, tok = acc ++ add ∧ l = add ++ r ∧ ∀ x ∈ add, numChar x = true := by
  rcases l with _ | ⟨c, t⟩
  · simp only [parseExpPart, Option.some.injEq, Prod.mk.injEq] at hp
    obtain ⟨rfl, rfl⟩ := hp
    exact ⟨[], by simp, by simp, by simp⟩
  · by_cases hce : (c = 'e' || c = 'E') = true
    · rcases t with _ | ⟨s, t2⟩
      · simp [parseExpPart, hce] at hp
      · by_cases hs : (s = '+' || s = '-') = true
        · simp only [parseExpPart, hce, if_true, hs] at hp
          split at hp
          · simp at hp
          · simp only [Option.some.injEq, Prod.mk.injEq] at hp
            obtain ⟨rfl, rfl⟩ := hp
            refine ⟨c :: ([s] ++ t2.takeWhile Char.isDigit), rfl, ?_, ?_⟩
            · simp only [List.cons_append, List.cons.injEq, List.append_assoc, true_and]
              exact (List.takeWhile_append_dropWhile _ _).symm
            · intro x hx
              simp only [List.cons_append, List.mem_cons] at hx
              rcases hx with rfl | rfl | hx
              · simp only [Bool.or_eq_true, decide_eq_true_eq] at hce
                rcases hce with rfl | rfl <;> decide
              · simp only [Bool.or_eq_true, decide_eq_true_eq] at hs
                rcases hs with rfl | rfl <;> decide
              · have := List.mem_takeWhile_imp hx
                simp [numChar, this]
        · simp only [parseExpPart, hce, if_true, hs, Bool.false_eq_true, if_false] at hp
          split at hp
          · simp at hp
          · simp only [Option.some.injEq, Prod.mk.injEq] at hp
            obtain ⟨rfl, rfl⟩ := hp
            refine ⟨c :: (s :: t2).takeWhile Char.isDigit, rfl, ?_, ?_⟩
            · simp only [List.cons_append, List.cons.injEq, true_and]
              exact (List.takeWhile_append_dropWhile _ _).symm
            · intro x hx
              simp only [List.mem_cons] at hx
              rcases hx with rfl | hx
              · simp only [Bool.or_eq_true, decide_eq_true_eq] at hce
                rcases hce with rfl | rfl <;> decide
              · have := List.mem_takeWhile_imp hx
                simp [numChar, this]
    · simp only [parseExpPart, hce, Bool.false_eq_true, if_false, Option.some.injEq,
        Prod.mk.injEq] at hp
      obtain ⟨rfl, rfl⟩ := hp
      exact ⟨[], by simp, by simp, by simp⟩

theorem parseFracPart_spec (acc l tok r : List Char)
    (hp : parseFracPart acc l = some (tok, r)) :
    ∃ add, tok = acc ++ add ∧ l = add ++ r ∧ ∀ x ∈ add, numChar x = true := by
  rw [parseFracPart.eq_def] at hp
  split at hp
  · next t =>
    split at hp
    · simp at hp
    · next hds =>
      obtain ⟨add2, htok, ht1, hch⟩ := parseExpPart_spec _ _ _ _ hp
      refine ⟨'.' :: t.takeWhile Char.isDigit ++ add2, by rw [htok]; simp, ?_, ?_⟩
      · have hsplit : t = t.takeWhile Char.isDigit ++ t.dropWhile Char.isDigit :=
          (List.takeWhile_append_dropWhile _ _).symm
        rw [ht1] at hsplit
        simp only [List.cons_append, List.cons.injEq, List.append_assoc, true_and]
        exact hsplit
      · intro x hx
        simp only [List.cons_append, List.mem_cons, List.mem_append] at hx
        rcases hx with rfl | hx | hx
        · decide
        · have := List.mem_takeWhile_imp hx
          simp [numChar, this]
        · exact hch x hx
  · obtain ⟨add, h1, h2, h3⟩ := parseExpPart_spec _ _ _ _ hp
    exact ⟨add, h1, h2, h3⟩

theorem parseNumTail_spec (sgn l1 tok r : List Char)
    (hp : parseNumTail sgn l1 = some (tok, r)) :
    ∃ add, add ≠ [] ∧ tok = sgn ++ add ∧ l1 = add ++ r ∧ ∀ x ∈ add, numChar x = true := by
  rcases l1 with _ | ⟨c, t⟩
  · simp [parseNumTail] at hp
  · by_cases h0 : c = '0'
    · subst h0
      simp only [parseNumTail, if_pos rfl] at hp
      obtain ⟨add2, htok, ht, hch⟩ := parseFracPart_spec _ _ _ _ hp
      refine ⟨'0' :: add2, by simp, by rw [htok]; simp, by rw [ht]; simp, ?_⟩
      intro x hx
      rcases List.mem_cons.mp hx with rfl | hx
      · decide
      · exact hch x hx
    · by_cases hd : c.isDigit = true
      · simp only [parseNumTail, h0, if_false, hd, if_true, reduceIte] at hp
        obtain ⟨add2, htok, ht1, hch⟩ := parseFracPart_spec _ _ _ _ hp
        refine ⟨c :: t.takeWhile Char.isDigit ++ add2, by simp, by rw [htok]; simp, ?_, ?_⟩
        · have hsplit : t = t.takeWhile Char.isDigit ++ t.dropWhile Char.isDigit :=
            (List.takeWhile_append_dropWhile _ _).symm
          rw [ht1] at hsplit
          simp only [List.cons_append, List.cons.injEq, List.append_assoc, true_and]
          exact hsplit
        · intro x hx
          simp only [List.cons_append, List.mem_cons, List.mem_append] at hx
          rcases hx with rfl | hx | hx
          · simp [numChar, hd]
          · have := List.mem_takeWhile_imp hx
            simp [numChar, this]
          · exact hch x hx
      · simp [parseNumTail, h0, hd] at hp

theorem parseNumber_spec (l tok r : List Char)
    (hp : parseNumber l = some (tok, r)) :
    l = tok ++ r ∧ tok ≠ [] ∧ ∀ x ∈ tok, numChar x = true := by
  rw [parseNumber.eq_def] at hp
  split at hp
  · next t =>
    obtain ⟨add, hne, htok, ht, hch⟩ := parseNumTail_spec _ _ _ _ hp
    refine ⟨by rw [htok, ht]; simp, by rw [htok]; simp, ?_⟩
    intro x hx
    rw [htok] at hx
    rcases List.mem_cons.mp hx with rfl | hx
    · decide
    · exact hch x hx
  · obtain ⟨add, hne, htok, ht, hch⟩ := parseNumTail_spec _ _ _ _ hp
    refine ⟨by rw [htok, ht]; simp, by rw [htok]; simpa using hne, ?_⟩
    intro x hx
    rw [htok] at hx
    simp only [List.nil_append] at hx
    exact hch x hx

theorem jsonWs_not_tick {x : Char} (h : jsonWs x = true) : x ≠ '`' := by
  simp only [jsonWs, Bool.or_eq_true, decide_eq_true_eq] at h
  rcases h with ((h | h) | h) | h <;> subst h <;> decide

theorem Qtick_ws {w : List Char} (h : ∀ x ∈ w, jsonWs x = true) : Qtick w :=
  Qtick_of_no_tick (fun x hx => jsonWs_not_tick (h x hx))

theorem skipWs_eq (l : List Char) : l = l.takeWhile jsonWs ++ skipWs l :=
  (List.takeWhile_append_dropWhile _ _).symm

theorem takeWhile_ws_mem {l : List Char} {x : Char} (hx : x ∈ l.takeWhile jsonWs) :
    jsonWs x = true := List.mem_takeWhile_imp hx

theorem ne_nil_of_getLast? {l : List Char} {x : Char} (h : l.getLast? = some x) :
    l ≠ [] := by
  rintro rfl
  simp at h

theorem Qtick_ws_chunk (t : List Char) : Qtick (t.takeWhile jsonWs) :=
  Qtick_ws (fun _ hx => takeWhile_ws_mem hx)

theorem valStep_chunk {pe : List Char → Option (List JValue × List Char)}
    {pm : List Char → Option (List (List Char × JValue) × List Char)}
    (hpe : ∀ {L es R}, pe L = some (es, R) → ∃ C, CloseChunk ']' L R C)
    (hpm : ∀ {L fs R}, pm L = some (fs, R) → ∃ C, CloseChunk '}' L R C) :
    ∀ {L v R}, valStep pe pm L = some (v, R) → ∃ C, ValChunk L R C := by
  intro L v R hp
  rw [valStep.eq_def] at hp
  rcases L with _ | ⟨c, t⟩
  · simp at hp
  · dsimp only at hp
    by_cases hq : c = '"'
    · subst hq
      rw [if_pos rfl] at hp
      split at hp
      · next s r hsb =>
        simp only [Option.some.injEq, Prod.mk.injEq] at hp
        obtain ⟨rfl, rfl⟩ := hp
        obtain ⟨hteq, hnl⟩ := parseStrBody_spec t s r hsb
        refine ⟨('"' :: s) ++ ['"'], by rw [hteq]; simp, by simp, ?_, ?_, ?_⟩
        · intro x hx
          simp only [List.cons_append, List.head?_cons, Option.some.injEq] at hx
          subst hx
          decide
        · intro x hx
          rw [List.getLast?_concat] at hx
          simp only [Option.some.injEq] at hx
          subst hx
          decide
        · have : ('"' :: s) ++ ['"'] = '"' :: (s ++ ['"']) := by simp
          rw [this]
          exact Qtick_string_token hnl
      · exact absurd hp (by simp)
    · rw [if_neg hq] at hp
      by_cases hob : c = '{'
      · subst hob
        rw [if_pos rfl] at hp
        split at hp
        · next r hsk =>
          simp only [Option.some.injEq, Prod.mk.injEq] at hp
          obtain ⟨rfl, rfl⟩ := hp
          refine ⟨('{' :: t.takeWhile jsonWs) ++ ['}'], ?_, by simp, ?_, ?_, ?_⟩
          · have ht : t = t.takeWhile jsonWs ++ ('}' :: r) := by
              conv_lhs => rw [skipWs_eq t]
              rw [hsk]
            conv_lhs => rw [ht]
            simp
          · intro x hx
            simp only [List.cons_append, List.head?_cons, Option.some.injEq] at hx
            subst hx
            decide
          · intro x hx
            rw [List.getLast?_concat] at hx
            simp only [Option.some.injEq] at hx
            subst hx
            decide
          · refine Qtick_of_no_tick ?_
            intro x hx
            simp only [List.cons_append, List.mem_cons, List.mem_append,
              List.not_mem_nil, or_false] at hx
            rcases hx with rfl | hx | rfl
            · decide
            · exact jsonWs_not_tick (takeWhile_ws_mem hx)
            · decide
        · next hnb =>
          split at hp
          · next fs r hm =>
            simp only [Option.some.injEq, Prod.mk.injEq] at hp
            obtain ⟨rfl, rfl⟩ := hp
            obtain ⟨Cm, hmL, hmlast, hmQ⟩ := hpm hm
            have hmne : Cm ≠ [] := ne_nil_of_getLast? hmlast
            refine ⟨('{' :: t.takeWhile jsonWs) ++ Cm, ?_, by simp, ?_, ?_, ?_⟩
            · have ht : t = t.takeWhile jsonWs ++ skipWs t := skipWs_eq t
              rw [hmL] at ht
              conv_lhs => rw [ht]
              simp
            · intro x hx
              simp only [List.cons_append, List.head?_cons, Option.some.injEq] at hx
              subst hx
              decide
            · intro x hx
              rw [List.getLast?_append_of_ne_nil _ hmne, hmlast] at hx
              simp only [Option.some.injEq] at hx
              subst hx
              decide
            · refine Qtick_append (Qtick_of_no_tick ?_) hmQ
              intro x hx
              rcases List.mem_cons.mp hx with rfl | hx
              · decide
              · exact jsonWs_not_tick (takeWhile_ws_mem hx)
          · exact absurd hp (by simp)
      · rw [if_neg hob] at hp
        by_cases har : c = '['
        · subst har
          rw [if_pos rfl] at hp
          split at hp
          · next r hsk =>
            simp only [Option.some.injEq, Prod.mk.injEq] at hp
            obtain ⟨rfl, rfl⟩ := hp
            refine ⟨('[' :: t.takeWhile jsonWs) ++ [']'], ?_, by simp, ?_, ?_, ?_⟩
            · have ht : t = t.takeWhile jsonWs ++ (']' :: r) := by
                conv_lhs => rw [skipWs_eq t]
                rw [hsk]
              conv_lhs => rw [ht]
              simp
            · intro x hx
              simp only [List.cons_append, List.head?_cons, Option.some.injEq] at hx
              subst hx
              decide
            · intro x hx
              rw [List.getLast?_concat] at hx
              simp only [Option.some.injEq] at hx
              subst hx
              decide
            · refine Qtick_of_no_tick ?_
              intro x hx
              simp only [List.cons_append, List.mem_cons, List.mem_append,
                List.not_mem_nil, or_false] at hx
              rcases hx with rfl | hx | rfl
              · decide
              · exact jsonWs_not_tick (takeWhile_ws_mem hx)
              · decide
          · next hnb =>
            split at hp
            · next es r he =>
              simp only [Option.some.injEq, Prod.mk.injEq] at hp
              obtain ⟨rfl, rfl⟩ := hp
              obtain ⟨Ce, heL, helast, heQ⟩ := hpe he
              have hene : Ce ≠ [] := ne_nil_of_getLast? helast
              refine ⟨('[' :: t.takeWhile jsonWs) ++ Ce, ?_, by simp, ?_, ?_, ?_⟩
              · have ht : t = t.takeWhile jsonWs ++ skipWs t := skipWs_eq t
                rw [heL] at ht
                conv_lhs => rw [ht]
                simp
              · intro x hx
                simp only [List.cons_append, List.head?_cons, Option.some.injEq] at hx
                subst hx
                decide
              · intro x hx
                rw [List.getLast?_append_of_ne_nil _ hene, helast] at hx
                simp only [Option.some.injEq] at hx
                subst hx
                decide
              · refine Qtick_append (Qtick_of_no_tick ?_) heQ
                intro x hx
                rcases List.mem_cons.mp hx with rfl | hx
                · decide
                · exact jsonWs_not_tick (takeWhile_ws_mem hx)
            · exact absurd hp (by simp)
        · rw [if_neg har] at hp
          by_cases hT : c = 't'
          · subst hT
            rw [if_pos rfl] at hp
            split at hp
            · next r =>
              simp only [Option.some.injEq, Prod.mk.injEq] at hp
              obtain ⟨rfl, rfl⟩ := hp
              refine ⟨['t', 'r', 'u', 'e'], by simp, by simp, ?_, ?_, ?_⟩
              · intro x hx
                simp only [List.head?_cons, Option.some.injEq] at hx
                subst hx
                decide
              · intro x hx
                have hmem := List.mem_of_mem_getLast? hx
                fin_cases hmem <;> decide
              · refine Qtick_of_no_tick ?_
                intro x hx
                fin_cases hx <;> decide
            · exact absurd hp (by simp)
          · rw [if_neg hT] at hp
            by_cases hF : c = 'f'
            · subst hF
              rw [if_pos rfl] at hp
              split at hp
              · next r =>
                simp only [Option.some.injEq, Prod.mk.injEq] at hp
                obtain ⟨rfl, rfl⟩ := hp
                refine ⟨['f', 'a', 'l', 's', 'e'], by simp, by simp, ?_, ?_, ?_⟩
                · intro x hx
                  simp only [List.head?_cons, Option.some.injEq] at hx
                  subst hx
                  decide
                · intro x hx
                  have hmem := List.mem_of_mem_getLast? hx
                  fin_cases hmem <;> decide
                · refine Qtick_of_no_tick ?_
                  intro x hx
                  fin_cases hx <;> decide
              · exact absurd hp (by simp)
            · rw [if_neg hF] at hp
              by_cases hN : c = 'n'
              · subst hN
                rw [if_pos rfl] at hp
                split at hp
                · next r =>
                  simp only [Option.some.injEq, Prod.mk.injEq] at hp
                  obtain ⟨rfl, rfl⟩ := hp
                  refine ⟨['n', 'u', 'l', 'l'], by simp, by simp, ?_, ?_, ?_⟩
                  · intro x hx
                    simp only [List.head?_cons, Option.some.injEq] at hx
                    subst hx
                    decide
                  · intro x hx
                    have hmem := List.mem_of_mem_getLast? hx
                    fin_cases hmem <;> decide
                  · refine Qtick_of_no_tick ?_
                    intro x hx
                    fin_cases hx <;> decide
                · exact absurd hp (by simp)
              · rw [if_neg hN] at hp
                split at hp
                · next raw r hnum =>
                  simp only [Option.some.injEq, Prod.mk.injEq] at hp
                  obtain ⟨rfl, rfl⟩ := hp
                  obtain ⟨hL, hne, hch⟩ := parseNumber_spec _ _ _ hnum
                  refine ⟨raw, hL, hne, ?_, ?_, ?_⟩
                  · intro x hx
                    have : x ∈ raw := by
                      rcases raw with _ | ⟨a, as⟩
                      · simp at hx
                      · simp only [List.head?_cons, Option.some.injEq] at hx
                        subst hx
                        simp
                    exact numChar_not_jsWs (hch x this)
                  · intro x hx
                    have : x ∈ raw := List.mem_of_mem_getLast? hx
                    exact numChar_not_jsWs (hch x this)
                  · exact Qtick_of_no_tick (fun x hx => numChar_not_tick (hch x hx))
                · exact absurd hp (by simp)

theorem elemsStep_chunk {pv : List Char → Option (JValue × List Char)}
    {pe : List Char → Option (List JValue × List Char)}
    (hpv : ∀ {L v R}, pv L = some (v, R) → ∃ C, ValChunk L R C)
    (hpe : ∀ {L es R}, pe L = some (es, R) → ∃ C, CloseChunk ']' L R C) :
    ∀ {L es R}, elemsStep pv pe L = some (es, R) → ∃ C, CloseChunk ']' L R C := by
  intro L es R hp
  rw [elemsStep.eq_def] at hp
  split at hp
  · exact absurd hp (by simp)
  · next v r hv =>
    obtain ⟨Cv, hvL, hvne, hvhead, hvlast, hvQ⟩ := hpv hv
    have h1 := skipWs_eq L
    rw [hvL] at h1
    split at hp
    · next r2 hsk =>
      split at hp
      · next es2 r3 he =>
        simp only [Option.some.injEq, Prod.mk.injEq] at hp
        obtain ⟨rfl, rfl⟩ := hp
        obtain ⟨Ce, heL, helast, heQ⟩ := hpe he
        have hene : Ce ≠ [] := ne_nil_of_getLast? helast
        have h2 := skipWs_eq r
        rw [hsk, heL] at h2
        refine ⟨(L.takeWhile jsonWs ++ Cv) ++ ((r.takeWhile jsonWs ++ [',']) ++ Ce),
          ?_, ?_, ?_⟩
        · rw [h2] at h1
          conv_lhs => rw [h1]
          simp
        · rw [List.getLast?_append_of_ne_nil _ (by simp [hene]),
            List.getLast?_append_of_ne_nil _ hene]
          exact helast
        · refine Qtick_append (Qtick_append (Qtick_ws_chunk L) hvQ)
            (Qtick_append (Qtick_of_no_tick ?_) heQ)
          intro x hx
          simp only [List.mem_append, List.mem_singleton, List.not_mem_nil,
            List.mem_cons, or_false] at hx
          rcases hx with hx | rfl
          · exact jsonWs_not_tick (takeWhile_ws_mem hx)
          · decide
      · exact absurd hp (by simp)
    · next r2 hsk =>
      simp only [Option.some.injEq, Prod.mk.injEq] at hp
      obtain ⟨rfl, rfl⟩ := hp
      have h2 := skipWs_eq r
      rw [hsk] at h2
      refine ⟨(L.takeWhile jsonWs ++ Cv) ++ (r.takeWhile jsonWs ++ [']']), ?_, ?_, ?_⟩
      · rw [h2] at h1
        conv_lhs => rw [h1]
        simp
      · rw [List.getLast?_append_of_ne_nil _ (by simp), List.getLast?_concat]
      · refine Qtick_append (Qtick_append (Qtick_ws_chunk L) hvQ) (Qtick_of_no_tick ?_)
        intro x hx
        simp only [List.mem_append, List.mem_singleton, List.not_mem_nil,
          List.mem_cons, or_false] at hx
        rcases hx with hx | rfl
        · exact jsonWs_not_tick (takeWhile_ws_mem hx)
        · decide
    · exact absurd hp (by simp)

theorem membersStep_chunk {pv : List Char → Option (JValue × List Char)}
    {pm : List Char → Option (List (List Char × JValue) × List Char)}
    (hpv : ∀ {L v R}, pv L = some (v, R) → ∃ C, ValChunk L R C)
    (hpm : ∀ {L fs R}, pm L = some (fs, R) → ∃ C, CloseChunk '}' L R C) :
    ∀ {L fs R}, membersStep pv pm L = some (fs, R) → ∃ C, CloseChunk '}' L R C := by
  intro L fs R hp
  rw [membersStep.eq_def] at hp
  split at hp
  · next t hsk0 =>
    have h0 := skipWs_eq L
    rw [hsk0] at h0
    split at hp
    · exact absurd hp (by simp)
    · next k r hsb =>
      obtain ⟨hteq, hnl⟩ := parseStrBody_spec t k r hsb
      rw [hteq] at h0
      split at hp
      · next r2 hsk1 =>
        have h1 := skipWs_eq r
        rw [hsk1] at h1
        split at hp
        · exact absurd hp (by simp)
        · next v r3 hv =>
          obtain ⟨Cv, hvL, hvne, hvhead, hvlast, hvQ⟩ := hpv hv
          have h2 := skipWs_eq r2
          rw [hvL] at h2
          split at hp
          · next r4 hsk2 =>
            split at hp
            · next fs2 r5 hm =>
              simp only [Option.some.injEq, Prod.mk.injEq] at hp
              obtain ⟨rfl, rfl⟩ := hp
              obtain ⟨Cm, hmL, hmlast, hmQ⟩ := hpm hm
              have hmne : Cm ≠ [] := ne_nil_of_getLast? hmlast
              have h3 := skipWs_eq r3
              rw [hsk2, hmL] at h3
              refine ⟨((L.takeWhile jsonWs ++ ('"' :: k) ++ ['"']) ++
                ((r.takeWhile jsonWs ++ [':']) ++ (r2.takeWhile jsonWs ++ Cv))) ++
                ((r3.takeWhile jsonWs ++ [',']) ++ Cm), ?_, ?_, ?_⟩
              · rw [h3] at h2
                rw [h2] at h1
                rw [h1] at h0
                conv_lhs => rw [h0]
                simp
              · rw [List.getLast?_append_of_ne_nil _ (by simp [hmne]),
                  List.getLast?_append_of_ne_nil _ hmne]
                exact hmlast
              · refine Qtick_append (Qtick_append ?_
                  (Qtick_append (Qtick_of_no_tick ?_)
                    (Qtick_append (Qtick_ws_chunk r2) hvQ)))
                  (Qtick_append (Qtick_of_no_tick ?_) hmQ)
                · have hsh : L.takeWhile jsonWs ++ ('"' :: k) ++ ['"'] =
                      L.takeWhile jsonWs ++ ('"' :: (k ++ ['"'])) := by simp
                  rw [hsh]
                  exact Qtick_append (Qtick_ws_chunk L) (Qtick_string_token hnl)
                · intro x hx
                  simp only [List.mem_append, List.mem_singleton, List.not_mem_nil,
                    List.mem_cons, or_false] at hx
                  rcases hx with hx | rfl
                  · exact jsonWs_not_tick (takeWhile_ws_mem hx)
                  · decide
                · intro x hx
                  simp only [List.mem_append, List.mem_singleton, List.not_mem_nil,
                    List.mem_cons, or_false] at hx
                  rcases hx with hx | rfl
                  · exact jsonWs_not_tick (takeWhile_ws_mem hx)
                  · decide
            · exact absurd hp (by simp)
          · next r4 hsk2 =>
            simp only [Option.some.injEq, Prod.mk.injEq] at hp
            obtain ⟨rfl, rfl⟩ := hp
            have h3 := skipWs_eq r3
            rw [hsk2] at h3
            refine ⟨((L.takeWhile jsonWs ++ ('"' :: k) ++ ['"']) ++
              ((r.takeWhile jsonWs ++ [':']) ++ (r2.takeWhile jsonWs ++ Cv))) ++
              (r3.takeWhile jsonWs ++ ['}']), ?_, ?_, ?_⟩
            · rw [h3] at h2
              rw [h2] at h1
              rw [h1] at h0
              conv_lhs => rw [h0]
              simp
            · rw [List.getLast?_append_of_ne_nil _ (by simp), List.getLast?_concat]
            · refine Qtick_append (Qtick_append ?_
                (Qtick_append (Qtick_of_no_tick ?_)
                  (Qtick_append (Qtick_ws_chunk r2) hvQ)))
                (Qtick_of_no_tick ?_)
              · have hsh : L.takeWhile jsonWs ++ ('"' :: k) ++ ['"'] =
                    L.takeWhile jsonWs ++ ('"' :: (k ++ ['"'])) := by simp
                rw [hsh]
                exact Qtick_append (Qtick_ws_chunk L) (Qtick_string_token hnl)
              · intro x hx
                simp only [List.mem_append, List.mem_singleton, List.not_mem_nil,
                  List.mem_cons, or_false] at hx
                rcases hx with hx | rfl
                · exact jsonWs_not_tick (takeWhile_ws_mem hx)
                · decide
              · intro x hx
                simp only [List.mem_append, List.mem_singleton, List.not_mem_nil,
                  List.mem_cons, or_false] at hx
                rcases hx with hx | rfl
                · exact jsonWs_not_tick (takeWhile_ws_mem hx)
                · decide
          · exact absurd hp (by simp)
      · exact absurd hp (by simp)
  · exact absurd hp (by simp)

/-- Every successful parse consumes a chunk with non-whitespace boundary
characters and guarded backticks. -/
theorem parse_chunks : ∀ f : Nat,
    (∀ {L v R}, parseVal f L = some (v, R) → ∃ C, ValChunk L R C) ∧
    (∀ {L es R}, parseElems f L = some (es, R) → ∃ C, CloseChunk ']' L R C) ∧
    (∀ {L fs R}, parseMembers f L = some (fs, R) → ∃ C, CloseChunk '}' L R C) := by
  intro f
  induction f with
  | zero =>
    refine ⟨?_, ?_, ?_⟩
    · intro L a R hp
      exact absurd hp (by rw [show parseVal 0 L = none from rfl]; simp)
    · intro L a R hp
      exact absurd hp (by rw [show parseElems 0 L = none from rfl]; simp)
    · intro L a R hp
      exact absurd hp (by rw [show parseMembers 0 L = none from rfl]; simp)
  | succ f ih =>
    obtain ⟨ihv, ihe, ihm⟩ := ih
    refine ⟨?_, ?_, ?_⟩
    · intro L v R hp
      exact valStep_chunk (fun h => ihe h) (fun h => ihm h) hp
    · intro L es R hp
      exact elemsStep_chunk (fun h => ihv h) (fun h => ihe h) hp
    · intro L fs R hp
      exact membersStep_chunk (fun h => ihv h) (fun h => ihm h) hp

/-! ### From a valid parse to the full text: decomposition and alignment -/

theorem char_toNat_inj {a b : Char} (h : a.toNat = b.toNat) : a = b :=
  Char.eq_of_val_eq (UInt32.ext h)

theorem lineTerm_cases {x : Char} (h : isLineTerm x = true)
    (hu : x.toNat ≠ 0x2028 ∧ x.toNat ≠ 0x2029) : x = '\n' ∨ x = '\r' := by
  simp only [isLineTerm, Bool.or_eq_true, decide_eq_true_eq] at h
  rcases h with ((h | h) | h) | h
  · exact Or.inl (char_toNat_inj h)
  · exact Or.inr (char_toNat_inj h)
  · exact absurd h hu.1
  · exact absurd h hu.2

theorem exists_of_findIdx? {l : List Char} {p : Char → Bool} {i : Nat}
    (h : l.findIdx? p = some i) : ∃ x ∈ l, p x = true := by
  obtain ⟨hlt, heq⟩ := List.findIdx?_eq_some_iff_findIdx_eq.mp h
  have hlt2 : l.findIdx p < l.length := by rw [heq]; exact hlt
  exact ⟨l.get ⟨l.findIdx p, hlt2⟩, List.get_mem _ _ _, List.findIdx_getElem⟩

/-- `String.trim` and `\s` drop at least the JSON whitespace; when the
remaining block is bounded by non-`\s` characters the two stripped forms
agree. -/
theorem dropWhile_jsWs_align : ∀ (l : List Char),
    (∀ x, (l.dropWhile jsonWs).head? = some x → jsWs x = false) →
    l.dropWhile jsWs = l.dropWhile jsonWs := by
  intro l
  induction l with
  | nil => intro _; rfl
  | cons c t ih =>
    intro h
    by_cases hc : jsonWs c = true
    · rw [List.dropWhile_cons_of_pos (jsonWs_le_jsWs hc), List.dropWhile_cons_of_pos hc]
      refine ih (fun x hx => h x ?_)
      rw [List.dropWhile_cons_of_pos hc]
      exact hx
    · have hcf : jsonWs c = false := by simpa using hc
      have hD : (c :: t).dropWhile jsonWs = c :: t := by
        rw [List.dropWhile_cons_of_neg (by simp [hcf])]
      have hjs : jsWs c = false := h c (by rw [hD]; rfl)
      rw [hD, List.dropWhile_cons_of_neg (by simp [hjs])]

theorem stripEnds_decomp (p : Char → Bool) (l : List Char) :
    ∃ W1 W2, l = W1 ++ (stripEnds p l ++ W2) ∧ (∀ x ∈ W1, p x = true) ∧
      (∀ x ∈ W2, p x = true) := by
  refine ⟨l.takeWhile p, ((l.dropWhile p).reverse.takeWhile p).reverse, ?_,
    fun x hx => List.mem_takeWhile_imp hx,
    fun x hx => List.mem_takeWhile_imp (List.mem_reverse.mp hx)⟩
  have h1 : l.dropWhile p =
      stripEnds p l ++ ((l.dropWhile p).reverse.takeWhile p).reverse := by
    have h2 : (l.dropWhile p).reverse =
        (l.dropWhile p).reverse.takeWhile p ++ (l.dropWhile p).reverse.dropWhile p :=
      (List.takeWhile_append_dropWhile _ _).symm
    calc l.dropWhile p = ((l.dropWhile p).reverse).reverse := by simp
    _ = ((l.dropWhile p).reverse.takeWhile p ++
        (l.dropWhile p).reverse.dropWhile p).reverse := by rw [← h2]
    _ = ((l.dropWhile p).reverse.dropWhile p).reverse ++
        ((l.dropWhile p).reverse.takeWhile p).reverse := by rw [List.reverse_append]
    _ = stripEnds p l ++ ((l.dropWhile p).reverse.takeWhile p).reverse := rfl
  conv_lhs => rw [← List.takeWhile_append_dropWhile p l, h1]

theorem stripEnds_align {l core : List Char}
    (hcore : stripEnds jsonWs l = core) (hne : core ≠ [])
    (hhead : ∀ x, core.head? = some x → jsWs x = false)
    (hlast : ∀ x, core.getLast? = some x → jsWs x = false) :
    stripEnds jsWs l = core := by
  have hrev : (l.dropWhile jsonWs).reverse.dropWhile jsonWs = core.reverse := by
    rw [← hcore]
    show _ = (((l.dropWhile jsonWs).reverse.dropWhile jsonWs).reverse).reverse
    rw [List.reverse_reverse]
  have hsplit : l.dropWhile jsonWs =
      core ++ ((l.dropWhile jsonWs).reverse.takeWhile jsonWs).reverse := by
    conv_lhs => rw [← List.reverse_reverse (l.dropWhile jsonWs),
      ← List.takeWhile_append_dropWhile jsonWs (l.dropWhile jsonWs).reverse]
    rw [List.reverse_append, hrev, List.reverse_reverse]
  have step1 : l.dropWhile jsWs = l.dropWhile jsonWs := by
    refine dropWhile_jsWs_align l (fun x hx => ?_)
    rw [hsplit, List.head?_append_of_ne_nil _ hne] at hx
    exact hhead x hx
  have step2 : (l.dropWhile jsonWs).reverse.dropWhile jsWs =
      (l.dropWhile jsonWs).reverse.dropWhile jsonWs := by
    refine dropWhile_jsWs_align _ (fun x hx => ?_)
    rw [hrev, List.head?_reverse] at hx
    exact hlast x hx
  show ((l.dropWhile jsWs).reverse.dropWhile jsWs).reverse = core
  rw [step1, step2, hrev, List.reverse_reverse]

theorem jsonParse_parseVal {s : String} {v : JValue} (h : jsonParse s = some v) :
    parseVal ((stripEnds jsonWs s.data).length + 1) (stripEnds jsonWs s.data) =
      some (v, []) := by
  unfold jsonParse at h
  split at h
  · next v2 heq =>
    simp only [Option.some.injEq] at h
    subst h
    exact heq
  · exact absurd h (by simp)

theorem jsonParse_core_chunk {s : String} {v : JValue} (h : jsonParse s = some v) :
    ValChunk (stripEnds jsonWs s.data) [] (stripEnds jsonWs s.data) := by
  obtain ⟨C, hC⟩ := (parse_chunks _).1 (jsonParse_parseVal h)
  have hCe : C = stripEnds jsonWs s.data := by
    have := hC.1
    simpa using this.symm
  rw [hCe] at hC
  exact hC

theorem Qtick_full {s : String} {v : JValue} (h : jsonParse s = some v) :
    Qtick s.data := by
  obtain ⟨W1, W2, hdec, hW1, hW2⟩ := stripEnds_decomp jsonWs s.data
  obtain ⟨_, _, _, _, hQ⟩ := jsonParse_core_chunk h
  rw [hdec]
  exact Qtick_append (Qtick_ws hW1) (Qtick_append hQ (Qtick_ws hW2))

theorem take3_backticks {t : List Char} (h : t.take 3 = backticks3) :
    ∃ u, t = '`' :: '`' :: '`' :: u := by
  rcases t with _ | ⟨a, t⟩
  · simp [backticks3] at h
  rcases t with _ | ⟨b, t⟩
  · simp [backticks3] at h
  rcases t with _ | ⟨c, t⟩
  · simp [backticks3] at h
  simp only [backticks3, List.take_succ_cons, List.take_zero, List.cons.injEq,
    and_true] at h
  obtain ⟨rfl, rfl, rfl⟩ := h
  exact ⟨t, rfl⟩

theorem replFence1Go_id {s : List Char}
    (hQ : Qtick s) (hu : ∀ x ∈ s, x.toNat ≠ 0x2028 ∧ x.toNat ≠ 0x2029) :
    ∀ l pre, s = pre ++ l → replFence1Go l = l := by
  intro l
  induction l with
  | nil => intro pre _; rfl
  | cons c t ih =>
    intro pre hpre
    rw [replFence1Go.eq_def]
    dsimp only
    by_cases hcond : (isLineTerm c && decide (t.take 3 = backticks3)) = true
    · exfalso
      simp only [Bool.and_eq_true, decide_eq_true_eq] at hcond
      obtain ⟨hlt, h3⟩ := hcond
      obtain ⟨u, rfl⟩ := take3_backticks h3
      have hsplit : s = (pre ++ [c]) ++ '`' :: ('`' :: '`' :: u) := by
        rw [hpre]; simp
      have hfirst := (hQ _ _ hsplit).1.2 pre c rfl
      have hcm : c ∈ s := by rw [hpre]; simp
      rcases lineTerm_cases hlt (hu c hcm) with rfl | rfl
      · exact hfirst.1 rfl
      · exact hfirst.2 rfl
    · simp only [Bool.and_eq_true, decide_eq_true_eq] at hcond
      have hcond2 : (isLineTerm c && decide (t.take 3 = backticks3)) = false := by
        rw [Bool.and_eq_false_iff]
        by_cases h1 : isLineTerm c = true
        · right
          simp only [decide_eq_false_iff_not]
          intro h2
          exact hcond ⟨h1, h2⟩
        · left
          simpa using h1
      rw [if_neg (by simp [hcond2])]
      rw [ih (pre ++ [c]) (by rw [hpre]; simp)]

theorem replFence1_id {s : List Char}
    (hQ : Qtick s) (hu : ∀ x ∈ s, x.toNat ≠ 0x2028 ∧ x.toNat ≠ 0x2029) :
    replFence1 s = s := by
  rw [replFence1]
  by_cases h3 : s.take 3 = backticks3
  · obtain ⟨u, rfl⟩ := take3_backticks h3
    exact absurd rfl ((hQ [] ('`' :: '`' :: u) rfl).1.1)
  · rw [if_neg h3]
    exact replFence1Go_id hQ hu s [] rfl

theorem fence2K_none {s pre u pr po : List Char}
    (hu : ∀ x ∈ s, x.toNat ≠ 0x2028 ∧ x.toNat ≠ 0x2029)
    (hs : s = pre ++ u) (hsp : u = pr ++ '"' :: po) (hnl : noNl pr) :
    fence2K u = none := by
  have hq_mem : ('"' : Char) ∈ u := by rw [hsp]; simp
  rw [fence2K]
  rw [if_neg ?hdw]
  case hdw =>
    intro hd
    have := List.dropWhile_eq_nil_iff.mp hd _ hq_mem
    exact absurd this (by decide)
  cases hf : (u.takeWhile jsWs).reverse.findIdx? isLineTerm with
  | none => rfl
  | some i =>
    exfalso
    obtain ⟨x, hxm, hxp⟩ := exists_of_findIdx? hf
    rw [List.mem_reverse] at hxm
    have hxws : jsWs x = true := List.mem_takeWhile_imp hxm
    have hxu : x ∈ u := (List.takeWhile_prefix _).subset hxm
    have hxs : x ∈ s := by rw [hs]; exact List.mem_append_right _ hxu
    have hxnl : x = '\n' ∨ x = '\r' := lineTerm_cases hxp (hu x hxs)
    have hw_pref : u.takeWhile jsWs <+: u := List.takeWhile_prefix _
    have hq_pref : (pr ++ ['"']) <+: u := by
      rw [hsp]
      exact ⟨po, by simp⟩
    rcases List.prefix_or_prefix_of_prefix hw_pref hq_pref with hp1 | hp1
    · have hxin : x ∈ pr ++ ['"'] := hp1.subset hxm
      simp only [List.mem_append, List.mem_singleton, List.not_mem_nil,
        List.mem_cons, or_false] at hxin
      rcases hxin with hxin | rfl
      · rcases hxnl with rfl | rfl
        · exact (hnl _ hxin).1 rfl
        · exact (hnl _ hxin).2 rfl
      · rcases hxnl with h | h <;> exact absurd h (by decide)
    · have : ('"' : Char) ∈ u.takeWhile jsWs := hp1.subset (by simp)
      have := List.mem_takeWhile_imp this
      exact absurd this (by decide)

theorem replFence2_id_aux {s : List Char}
    (hQ : Qtick s) (hu : ∀ x ∈ s, x.toNat ≠ 0x2028 ∧ x.toNat ≠ 0x2029) :
    ∀ l pre, s = pre ++ l → replFence2 l = l := by
  intro l
  induction l with
  | nil => intro pre _; rfl
  | cons c t ih =>
    intro pre hpre
    rw [replFence2.eq_def]
    dsimp only
    by_cases hcond : (c = '`' && decide (t.take 2 = ['`', '`'])) = true
    · simp only [Bool.and_eq_true, decide_eq_true_eq] at hcond
      obtain ⟨hc, h2⟩ := hcond
      subst hc
      have h2t : ∃ u, t = '`' :: '`' :: u := by
        rcases t with _ | ⟨a, t⟩
        · simp at h2
        rcases t with _ | ⟨b, t⟩
        · simp at h2
        simp only [List.take_succ_cons, List.take_zero, List.cons.injEq, and_true] at h2
        obtain ⟨rfl, rfl⟩ := h2
        exact ⟨t, rfl⟩
      obtain ⟨u, rfl⟩ := h2t
      have hsplit : s = (pre ++ ['`', '`']) ++ '`' :: u := by
        rw [hpre]; simp
      obtain ⟨pr, po, hsp, hnl⟩ := (hQ _ _ hsplit).2
      have hF : fence2K (('`' :: '`' :: u).drop 2) = none := by
        simp only [List.drop_succ_cons, List.drop_zero]
        exact @fence2K_none s (pre ++ ['`', '`', '`']) u pr po hu
          (by rw [hsplit]; simp) hsp hnl
      rw [if_pos (by simp), hF]
      rw [ih (pre ++ ['`']) (by rw [hpre]; simp)]
    · rw [if_neg (by simpa using hcond)]
      rw [ih (pre ++ [c]) (by rw [hpre]; simp)]

theorem replFence2_id {s : List Char}
    (hQ : Qtick s) (hu : ∀ x ∈ s, x.toNat ≠ 0x2028 ∧ x.toNat ≠ 0x2029) :
    replFence2 s = s :=
  replFence2_id_aux hQ hu s [] rfl

theorem stripEnds_eq_self {p : Char → Bool} {l : List Char} (hne : l ≠ [])
    (hhead : ∀ x, l.head? = some x → p x = false)
    (hlast : ∀ x, l.getLast? = some x → p x = false) : stripEnds p l = l := by
  have h1 : l.dropWhile p = l := by
    rcases l with _ | ⟨a, t⟩
    · rfl
    · exact List.dropWhile_cons_of_neg (by simp [hhead a rfl])
  show ((l.dropWhile p).reverse.dropWhile p).reverse = l
  rw [h1]
  have h2 : l.reverse.dropWhile p = l.reverse := by
    rcases hr : l.reverse with _ | ⟨a, t⟩
    · rfl
    · have ha : l.getLast? = some a := by
        rw [← List.head?_reverse, hr]
        rfl
      exact List.dropWhile_cons_of_neg (by simp [hlast a ha])
  rw [h2, List.reverse_reverse]

/-- On valid JSON text without U+2028/U+2029, the fence regexes do not fire,
trimming only strips outer whitespace, and the direct-parse path of
`parseJSON` returns the `JSON.parse` value itself. -/
theorem parseJSON_of_jsonParse {j : String} {v : JValue} (hj : jsonParse j = some v)
    (hu : ∀ x ∈ j.data, x.toNat ≠ 0x2028 ∧ x.toNat ≠ 0x2029) :
    parseJSON j = Except.ok v := by
  have hQ := Qtick_full hj
  obtain ⟨_, hne, hhead, hlast, _⟩ := jsonParse_core_chunk hj
  have h1 : replFence1 j.data = j.data := replFence1_id hQ hu
  have h2 : replFence2 j.data = j.data := replFence2_id hQ hu
  have h3 : trimJS j.data = stripEnds jsonWs j.data :=
    stripEnds_align rfl hne hhead hlast
  have hid : stripEnds jsonWs (stripEnds jsonWs j.data) = stripEnds jsonWs j.data := by
    refine stripEnds_eq_self hne (fun x hx => ?_) (fun x hx => ?_)
    · cases hjx : jsonWs x
      · rfl
      · exact absurd (jsonWs_le_jsWs hjx) (by simp [hhead x hx])
    · cases hjx : jsonWs x
      · rfl
      · exact absurd (jsonWs_le_jsWs hjx) (by simp [hlast x hx])
  have hsp : jsonParse (String.mk (stripEnds jsonWs j.data)) = some v := by
    unfold jsonParse
    rw [show (String.mk (stripEnds jsonWs j.data)).data = stripEnds jsonWs j.data
      from rfl, hid, jsonParse_parseVal hj]
  have htc : tryCandidate (String.mk (stripEnds jsonWs j.data)) = some v := by
    unfold tryCandidate
    rw [hsp]
  unfold parseJSON
  rw [h1, h2, h3, htc]

theorem ebGo_isSome_eq_scanCloses (o cl : Char) : ∀ (l : List Char) (d : Int) (b : Bool),
    (ebGo o cl l d b).isSome = scanCloses o cl ⟨d, b, false⟩ l := by
  intro l d b
  induction l, d, b using ebGo.induct o cl with
  | case1 x x1 => rfl
  | case2 depth =>
    rw [ebGo.eq_def]
    dsimp only
    simp [scanCloses, scanStep]
  | case3 depth e rest2 ih =>
    rw [ebGo.eq_def]
    dsimp only
    simp [scanCloses, scanStep, Option.isSome_map, ih]
  | case4 t depth h ih =>
    rw [ebGo.eq_def]
    dsimp only
    simp [scanCloses, scanStep, Option.isSome_map, ih]
  | case5 ch t depth h1 h2 ih =>
    rw [ebGo.eq_def]
    dsimp only
    simp [h1, h2, scanCloses, scanStep, Option.isSome_map, ih]
  | case6 t depth inStr h ih =>
    have hb : inStr = false := by simpa using h
    subst hb
    rw [ebGo.eq_def]
    dsimp only
    simp [scanCloses, scanStep, Option.isSome_map, ih]
  | case7 t depth inStr h ho ih =>
    have hb : inStr = false := by simpa using h
    subst hb
    rw [ebGo.eq_def]
    dsimp only
    simp [ho, scanCloses, scanStep, Option.isSome_map, ih]
  | case8 t depth inStr h hdep hq hco =>
    have hb : inStr = false := by simpa using h
    subst hb
    rw [ebGo.eq_def]
    dsimp only
    simp [hdep, hq, hco, scanCloses, scanStep]
  | case9 t depth inStr h hdep hq hco ih =>
    have hb : inStr = false := by simpa using h
    subst hb
    rw [ebGo.eq_def]
    dsimp only
    simp [hdep, hq, hco, scanCloses, scanStep, Option.isSome_map, ih]
  | case10 ch t depth inStr h hq ho hc ih =>
    have hb : inStr = false := by simpa using h
    subst hb
    rw [ebGo.eq_def]
    dsimp only
    simp [hq, ho, hc, scanCloses, scanStep, Option.isSome_map, ih]

theorem extractBalanced_none_iff (text : String) (start : Nat) (o cl : Char) :
    extractBalanced text start o cl = none ↔ neverBalanced text start o cl := by
  have h := ebGo_isSome_eq_scanCloses o cl (text.data.drop start) 0 false
  unfold extractBalanced neverBalanced
  cases heb : ebGo o cl (text.data.drop start) 0 false with
  | none =>
    rw [heb] at h
    simp only [Option.isSome_none] at h
    simp [h.symm]
  | some n =>
    rw [heb] at h
    simp only [Option.isSome_some] at h
    simp [h.symm]

theorem ebGo_le_length (o cl : Char) : ∀ (l : List Char) (d : Int) (b : Bool),
    ∀ n, ebGo o cl l d b = some n → n ≤ l.length := by
  intro l d b
  induction l, d, b using ebGo.induct o cl with
  | case1 x x1 =>
    intro n h
    exact absurd h (by rw [ebGo.eq_def]; simp)
  | case2 depth =>
    intro n h
    rw [ebGo.eq_def] at h
    simp at h
  | case3 depth e rest2 ih =>
    intro n h
    rw [ebGo.eq_def] at h
    simp at h
    obtain ⟨a, ha, rfl⟩ := h
    have := ih a ha
    simp only [List.length_cons]
    omega
  | case4 t depth hne ih =>
    intro n h
    rw [ebGo.eq_def] at h
    simp at h
    obtain ⟨a, ha, rfl⟩ := h
    have := ih a ha
    simp only [List.length_cons]
    omega
  | case5 ch t depth h1 h2 ih =>
    intro n h
    rw [ebGo.eq_def] at h
    simp [h1, h2] at h
    obtain ⟨a, ha, rfl⟩ := h
    have := ih a ha
    simp only [List.length_cons]
    omega
  | case6 t depth inStr hI ih =>
    have hb : inStr = false := by simpa using hI
    subst hb
    intro n h
    rw [ebGo.eq_def] at h
    simp at h
    obtain ⟨a, ha, rfl⟩ := h
    have := ih a ha
    simp only [List.length_cons]
    omega
  | case7 t depth inStr hI ho ih =>
    have hb : inStr = false := by simpa using hI
    subst hb
    intro n h
    rw [ebGo.eq_def] at h
    simp [ho] at h
    obtain ⟨a, ha, rfl⟩ := h
    have := ih a ha
    simp only [List.length_cons]
    omega
  | case8 t depth inStr hI hdep hq hco =>
    have hb : inStr = false := by simpa using hI
    subst hb
    intro n h
    rw [ebGo.eq_def] at h
    simp [hdep, hq, hco] at h
    simp only [List.length_cons]
    omega
  | case9 t depth inStr hI hdep hq hco ih =>
    have hb : inStr = false := by simpa using hI
    subst hb
    intro n h
    rw [ebGo.eq_def] at h
    simp [hdep, hq, hco] at h
    obtain ⟨a, ha, rfl⟩ := h
    have := ih a ha
    simp only [List.length_cons]
    omega
  | case10 ch t depth inStr hI hq ho hc ih =>
    have hb : inStr = false := by simpa using hI
    subst hb
    intro n h
    rw [ebGo.eq_def] at h
    simp [hq, ho, hc] at h
    obtain ⟨a, ha, rfl⟩ := h
    have := ih a ha
    simp only [List.length_cons]
    omega

/-- `parseJSON` either returns a parsed value or raises exactly the
user-facing format error, never anything else. -/
theorem parseJSON_ok_or_fmtErr (raw : String) :
    (∃ v, parseJSON raw = Except.ok v) ∨ parseJSON raw = Except.error fmtErr := by
  unfold parseJSON
  cases h1 : tryCandidate (String.mk (trimJS (replFence2 (replFence1 raw.data)))) with
  | some v => exact Or.inl ⟨v, rfl⟩
  | none =>
    cases h2 : tryCandidate raw with
    | some v => exact Or.inl ⟨v, rfl⟩
    | none => exact Or.inr rfl

theorem find?_setOrAppend_self (k : List Char) (v : JValue) :
    ∀ l : List (List Char × JValue),
      (setOrAppend k v l).find? (fun f => f.1 = k) = some (k, v)
  | [] => by simp [setOrAppend]
  | (k2, v2) :: rest => by
    by_cases h : k2 = k
    · simp [setOrAppend, h]
    · simp only [setOrAppend, if_neg h]
      rw [List.find?_cons_of_neg _ (by simp [h])]
      exact find?_setOrAppend_self k v rest

theorem find?_setOrAppend_ne {k k2 : List Char} (h : k2 ≠ k) (v : JValue) :
    ∀ l : List (List Char × JValue),
      (setOrAppend k v l).find? (fun f => f.1 = k2) = l.find? (fun f => f.1 = k2)
  | [] => by simp [setOrAppend, h.symm]
  | (k3, v3) :: rest => by
    by_cases h3 : k3 = k
    · subst h3
      rw [show setOrAppend k3 v ((k3, v3) :: rest) = (k3, v) :: rest from by
        simp [setOrAppend]]
      rw [List.find?_cons_of_neg _ (by simp [Ne.symm h]),
        List.find?_cons_of_neg _ (by simp [Ne.symm h])]
    · simp only [setOrAppend, if_neg h3]
      by_cases h2 : k3 = k2
      · subst h2
        rw [List.find?_cons_of_pos _ (by simp), List.find?_cons_of_pos _ (by simp)]
      · rw [List.find?_cons_of_neg _ (by simp [h2]),
          List.find?_cons_of_neg _ (by simp [h2])]
        exact find?_setOrAppend_ne h v rest

theorem getField_setOrAppend_self (k : List Char) (v : JValue)
    (l : List (List Char × JValue)) :
    (JValue.obj (setOrAppend k v l)).getField k = some v := by
  simp [JValue.getField, find?_setOrAppend_self]

theorem getField_setOrAppend_ne {k k2 : List Char} (h : k2 ≠ k) (v : JValue)
    (l : List (List Char × JValue)) :
    (JValue.obj (setOrAppend k v l)).getField k2 = (JValue.obj l).getField k2 := by
  simp [JValue.getField, find?_setOrAppend_ne h]

theorem itineraryPostDay_ok {startDate : String} {ymd : Nat × Nat × Nat}
    (hs : parseYMD startDate = some ymd) (i : Nat) (day : JValue) :
    itineraryPostDay startDate i day =
      Except.ok (JValue.obj (setOrAppend "activities".data
        (JValue.arr (match day.getField "activities".data with
          | some (.arr xs) => xs
          | _ => []))
        (setOrAppend "date".data (JValue.str (formatYMD (addDays ymd i)).data)
          (spreadFields day)))) := by
  simp [itineraryPostDay, dateAddISO, hs]

theorem date_ne_activities : "date".data ≠ "activities".data := by decide

/-- C6: in the itinerary post-processing, a day object whose `activities`
field is missing, `null`, or otherwise not an array comes out with an empty
`activities` array rather than the call throwing, while a day with a proper
array keeps its activities unchanged; the post-processing step itself always
succeeds (for a well-formed trip start date). -/
theorem claim_C6 (startDate : String) (ymd : Nat × Nat × Nat) (i : Nat) (day : JValue)
    (hs : parseYMD startDate = some ymd) :
    ∃ fields, itineraryPostDay startDate i day = Except.ok (JValue.obj fields) ∧
      ((∃ xs, day.getField "activities".data = some (JValue.arr xs) ∧
          (JValue.obj fields).getField "activities".data = some (JValue.arr xs)) ∨
       ((∀ xs, day.getField "activities".data ≠ some (JValue.arr xs)) ∧
          (JValue.obj fields).getField "activities".data = some (JValue.arr []))) := by
  refine ⟨_, itineraryPostDay_ok hs i day, ?_⟩
  rcases h : day.getField "activities".data with _ | v
  · exact Or.inr ⟨by simp [h], by rw [getField_setOrAppend_self]⟩
  · cases v with
    | arr xs =>
      refine Or.inl ⟨xs, rfl, ?_⟩
      rw [getField_setOrAppend_self]
    | null => exact Or.inr ⟨by simp [h], by rw [getField_setOrAppend_self]⟩
    | bool b => exact Or.inr ⟨by simp [h], by rw [getField_setOrAppend_self]⟩
    | num raw => exact Or.inr ⟨by simp [h], by rw [getField_setOrAppend_self]⟩
    | str raw => exact Or.inr ⟨by simp [h], by rw [getField_setOrAppend_self]⟩
    | obj fs => exact Or.inr ⟨by simp [h], by rw [getField_setOrAppend_self]⟩

theorem claim_C6_witness :
    ∃ fields,
      itineraryPostDay "2026-03-01" 0 (JValue.obj [("activities".data, JValue.null)]) =
        Except.ok (JValue.obj fields) ∧
      ((∃ xs, (JValue.obj [("activities".data, JValue.null)]).getField "activities".data =
            some (JValue.arr xs) ∧
          (JValue.obj fields).getField "activities".data = some (JValue.arr xs)) ∨
       ((∀ xs, (JValue.obj [("activities".data, JValue.null)]).getField "activities".data ≠
            some (JValue.arr xs)) ∧
          (JValue.obj fields).getField "activities".data = some (JValue.arr []))) :=
  claim_C6 "2026-03-01" (2026, 3, 1) 0 (JValue.obj [("activities".data, JValue.null)]) rfl

theorem postDay_date {startDate : String} {ymd : Nat × Nat × Nat}
    (hs : parseYMD startDate = some ymd) (i : Nat) (day : JValue) :
    ∃ o, itineraryPostDay startDate i day = Except.ok o ∧
      o.getField "date".data = some (JValue.str (formatYMD (addDays ymd i)).data) := by
  refine ⟨_, itineraryPostDay_ok hs i day, ?_⟩
  rw [getField_setOrAppend_ne date_ne_activities, getField_setOrAppend_self]

/-- C5: for trip startDate `2026-03-01` and three returned day objects
(whatever their own `date` fields hold), the post-processed itinerary's
dates are exactly `2026-03-01`, `2026-03-02`, `2026-03-03` in order, each
re-derived from the trip's start date plus the day's index. -/
theorem claim_C5 (d0 d1 d2 : JValue) (h0 : d0.isNull = false)
    (h1 : d1.isNull = false) (h2 : d2.isNull = false) :
    ∃ o0 o1 o2, itineraryPost "2026-03-01" [d0, d1, d2] = Except.ok [o0, o1, o2] ∧
      o0.getField "date".data = some (JValue.str "2026-03-01".data) ∧
      o1.getField "date".data = some (JValue.str "2026-03-02".data) ∧
      o2.getField "date".data = some (JValue.str "2026-03-03".data) := by
  have hp : parseYMD "2026-03-01" = some (2026, 3, 1) := rfl
  obtain ⟨o0, ho0, hd0⟩ := postDay_date hp 0 d0
  obtain ⟨o1, ho1, hd1⟩ := postDay_date hp 1 d1
  obtain ⟨o2, ho2, hd2⟩ := postDay_date hp 2 d2
  rw [show formatYMD (addDays (2026, 3, 1) 0) = "2026-03-01" from rfl] at hd0
  rw [show formatYMD (addDays (2026, 3, 1) 1) = "2026-03-02" from rfl] at hd1
  rw [show formatYMD (addDays (2026, 3, 1) 2) = "2026-03-03" from rfl] at hd2
  refine ⟨o0, o1, o2, ?_, hd0, hd1, hd2⟩
  simp only [itineraryPost, List.filter_cons, h0, h1, h2, Bool.not_false, if_pos,
    List.filter_nil, List.enum]
  simp only [List.enumFrom]
  simp only [List.mapM_cons, List.mapM_nil, ho0, ho1, ho2]
  rfl

theorem claim_C5_witness :
    ∃ o0 o1 o2,
      itineraryPost "2026-03-01" [JValue.obj [], JValue.obj [], JValue.obj []] =
        Except.ok [o0, o1, o2] ∧
      o0.getField "date".data = some (JValue.str "2026-03-01".data) ∧
      o1.getField "date".data = some (JValue.str "2026-03-02".data) ∧
      o2.getField "date".data = some (JValue.str "2026-03-03".data) :=
  claim_C5 (JValue.obj []) (JValue.obj []) (JValue.obj []) rfl rfl rfl

theorem isImage_of_textLike {f : TripContextFile} (hf : isTextLike f = true) :
    isImage f = false := by
  rcases Bool.or_eq_true_iff.mp hf with h | h
  · rw [isImage, show f.mimeType = "text/plain" from by simpa using h]
    decide
  · rw [isImage, show f.mimeType = "text/markdown" from by simpa using h]
    decide

theorem isPdf_of_textLike {f : TripContextFile} (hf : isTextLike f = true) :
    isPdf f = false := by
  rcases Bool.or_eq_true_iff.mp hf with h | h
  · rw [isPdf, show f.mimeType = "text/plain" from by simpa using h]
    decide
  · rw [isPdf, show f.mimeType = "text/markdown" from by simpa using h]
    decide

theorem decodeConcat_middle (atob : String → Option String) {f : TripContextFile}
    (hd : atob f.dataBase64 = none) (l1 l2 : List TripContextFile) :
    decodeConcat atob (l1 ++ f :: l2) = decodeConcat atob (l1 ++ l2) := by
  simp only [decodeConcat, List.foldl_append, List.foldl_cons, hd]

theorem notesPart_of_falsy {t : Option String} (h : strTruthy t = false) :
    notesPart t = "" := by
  cases t with
  | none => rfl
  | some s =>
    have he : s.isEmpty = true := by simpa [strTruthy] using h
    simp [notesPart, he]

theorem string_empty_append (s : String) : "" ++ s = s := rfl

/-- C8: when one text-like file's base64 payload fails to decode,
`buildClaudeContent` does not throw: the result is identical to what is
built for the same context without that file, every other file's
contribution and the prompt unchanged. -/
theorem claim_C8 (atob : String → Option String) (prompt : String)
    (t : Option String) (pre post : List TripContextFile) (f : TripContextFile)
    (hf : isTextLike f = true) (hd : atob f.dataBase64 = none) :
    buildClaudeContent atob prompt (some ⟨t, some (pre ++ f :: post)⟩) =
      buildClaudeContent atob prompt (some ⟨t, some (pre ++ post)⟩) := by
  have hi := isImage_of_textLike hf
  have hp := isPdf_of_textLike hf
  have himg : (pre ++ f :: post).filter isImage = (pre ++ post).filter isImage := by
    simp [List.filter_append, List.filter_cons, hi]
  have hpdf : (pre ++ f :: post).filter isPdf = (pre ++ post).filter isPdf := by
    simp [List.filter_append, List.filter_cons, hp]
  have htxt : decodeConcat atob ((pre ++ f :: post).filter isTextLike) =
      decodeConcat atob ((pre ++ post).filter isTextLike) := by
    rw [List.filter_append, List.filter_cons, hf, List.filter_append]
    exact decodeConcat_middle atob hd _ _
  by_cases hg : (!strTruthy t && (pre ++ post).isEmpty) = true
  · -- the file was the only one: both sides are the bare prompt
    obtain ⟨hts, hemp⟩ := Bool.and_eq_true_iff.mp hg
    have hts' : strTruthy t = false := by simpa using hts
    obtain ⟨hpre, hpost⟩ : pre = [] ∧ post = [] := by
      rcases pre with _ | ⟨a, l⟩
      · rcases post with _ | ⟨b, m⟩
        · exact ⟨rfl, rfl⟩
        · simp at hemp
      · simp at hemp
    subst hpre; subst hpost
    simp [buildClaudeContent, ctxFiles, ctxText, hts', List.filter_cons, hi, hp, hf,
      notesPart_of_falsy hts', decodeConcat, hd, string_empty_append]
  · -- both sides take the non-trivial branch
    have hgl : (!strTruthy t && (pre ++ f :: post).isEmpty) = false := by
      rcases pre with _ | ⟨a, l⟩ <;> simp
    have hgr : (!strTruthy t && (pre ++ post).isEmpty) = false := by
      simpa using hg
    simp only [buildClaudeContent, ctxFiles, ctxText, Option.getD_some, hgl, hgr,
      Bool.false_eq_true, if_false, himg, hpdf, htxt]

/-- C7: with at least one image or PDF file in the context,
`buildClaudeContent` returns the ordered block list: one image block per
image file in order (mime type + base64 data), then one document block per
PDF file, then exactly one trailing text block holding the notes prefix,
the decoded text-like files, and the prompt. -/
theorem claim_C7 (atob : String → Option String) (prompt : String)
    (context : Option TripContext)
    (hbin : (ctxFiles context).filter isImage ≠ [] ∨
      (ctxFiles context).filter isPdf ≠ []) :
    buildClaudeContent atob prompt context =
      ClaudeContent.blocks
        (((ctxFiles context).filter isImage).map
            (fun f => ClaudeContentBlock.image f.mimeType f.dataBase64) ++
         ((ctxFiles context).filter isPdf).map
            (fun f => ClaudeContentBlock.document f.dataBase64) ++
         [ClaudeContentBlock.text
           (notesPart (ctxText context) ++
            decodeConcat atob ((ctxFiles context).filter isTextLike) ++ prompt)]) := by
  have hne : ctxFiles context ≠ [] := by
    intro h
    rcases hbin with hb | hb <;> rw [h] at hb <;> simp at hb
  have hguard : (!strTruthy (ctxText context) && (ctxFiles context).isEmpty) = false := by
    rcases hl : ctxFiles context with _ | ⟨a, l⟩
    · exact absurd hl hne
    · simp
  have hsecond : (((ctxFiles context).filter isImage).isEmpty &&
      ((ctxFiles context).filter isPdf).isEmpty) = false := by
    rcases hbin with hb | hb
    · rcases hl : (ctxFiles context).filter isImage with _ | ⟨a, l⟩
      · exact absurd hl hb
      · simp
    · rcases hl : (ctxFiles context).filter isPdf with _ | ⟨a, l⟩
      · exact absurd hl hb
      · simp [hl]
  simp only [buildClaudeContent, hguard, hsecond, Bool.false_eq_true, if_false]

theorem claim_C7_witness :
    buildClaudeContent (fun _ => none) "P"
      (some ⟨some "hi", some [⟨"1", "a.png", "image/png", "IMGDATA", none, 3⟩]⟩) =
      ClaudeContent.blocks
        ([ClaudeContentBlock.image "image/png" "IMGDATA"] ++ [] ++
         [ClaudeContentBlock.text
           (notesPart (some "hi") ++
            decodeConcat (fun _ => none)
              (List.filter isTextLike [⟨"1", "a.png", "image/png", "IMGDATA", none, 3⟩]) ++
            "P")]) := by
  have h := claim_C7 (fun _ => none) "P"
    (some ⟨some "hi", some [⟨"1", "a.png", "image/png", "IMGDATA", none, 3⟩]⟩)
    (Or.inl (by decide))
  exact h

theorem claim_C8_witness :
    buildClaudeContent (fun _ => none) "P"
      (some ⟨some "hi", some ([] ++ ⟨"1", "n.txt", "text/plain", "%%", none, 2⟩ :: [])⟩) =
      buildClaudeContent (fun _ => none) "P" (some ⟨some "hi", some ([] ++ [])⟩) :=
  claim_C8 (fun _ => none) "P" (some "hi") [] []
    ⟨"1", "n.txt", "text/plain", "%%", none, 2⟩ (by decide) rfl

/-- C2: with the Claude key present, the router `callGeneration` retries
exactly once via Perplexity (with the plain-text fallback content) if and
only if the Claude call failed with an authentication-classified error and
a Perplexity key is configured; on any other failure, or without a
Perplexity key, the original error propagates unchanged with no fallback
call.  The fallback content depends only on the notes text and the
text-like files: binary attachments are dropped. -/
theorem claim_C2 (atob : String → Option String)
    (claudeResp pplxResp : Except String String) (prompt system : String)
    (anthropicKey perplexityKey : String) (context : Option TripContext)
    (hk : anthropicKey ≠ "") :
    (∀ t, claudeResp = Except.ok t →
      callGeneration atob claudeResp pplxResp prompt system anthropicKey
          perplexityKey context =
        (Except.ok t, [TransportCall.claude (buildClaudeContent atob prompt context) system])) ∧
    (∀ e, claudeResp = Except.error e → isAuthError e = true → perplexityKey ≠ "" →
      callGeneration atob claudeResp pplxResp prompt system anthropicKey
          perplexityKey context =
        (pplxResp,
         [TransportCall.claude (buildClaudeContent atob prompt context) system,
          TransportCall.pplx (fallbackEnriched atob prompt context) system])) ∧
    (∀ e, claudeResp = Except.error e →
        (isAuthError e = false ∨ perplexityKey = "") →
      callGeneration atob claudeResp pplxResp prompt system anthropicKey
          perplexityKey context =
        (Except.error e,
         [TransportCall.claude (buildClaudeContent atob prompt context) system])) ∧
    (∀ context' : Option TripContext, ctxText context' = ctxText context →
        (ctxFiles context').filter isTextLike = (ctxFiles context).filter isTextLike →
      fallbackEnriched atob prompt context' = fallbackEnriched atob prompt context) := by
  have hke : anthropicKey.isEmpty = false := by
    cases he : anthropicKey.isEmpty
    · rfl
    · exact absurd ((String.isEmpty_iff _).mp he) hk
  refine ⟨?_, ?_, ?_, ?_⟩
  · intro t ht
    subst ht
    simp [callGeneration, hke]
  · intro e he ha hp
    subst he
    have hpe : perplexityKey.isEmpty = false := by
      cases he : perplexityKey.isEmpty
      · rfl
      · exact absurd ((String.isEmpty_iff _).mp he) hp
    simp [callGeneration, hke, ha, hpe]
  · intro e he hor
    subst he
    rcases hor with ha | hp
    · simp [callGeneration, hke, ha]
    · subst hp
      simp [callGeneration, hke, show ("" : String).isEmpty = true from rfl]
  · intro context' h1 h2
    simp only [fallbackEnriched, h1, h2]

/-- C3: with no Claude key and a Perplexity key configured, the router
`callGeneration` goes straight to Perplexity with the plain-text content,
makes zero Claude transport calls, and returns Perplexity's text on
success. -/
theorem claim_C3 (atob : String → Option String)
    (claudeResp pplxResp : Except String String) (prompt system : String)
    (perplexityKey : String) (context : Option TripContext)
    (_hp : perplexityKey ≠ "") :
    callGeneration atob claudeResp pplxResp prompt system "" perplexityKey context =
      (pplxResp, [TransportCall.pplx (fallbackEnriched atob prompt context) system]) ∧
    (∀ c ∈ (callGeneration atob claudeResp pplxResp prompt system "" perplexityKey
        context).2, c.isClaude = false) ∧
    (∀ t, pplxResp = Except.ok t →
      (callGeneration atob claudeResp pplxResp prompt system "" perplexityKey
          context).1 = Except.ok t) := by
  have heq : callGeneration atob claudeResp pplxResp prompt system "" perplexityKey
      context =
      (pplxResp, [TransportCall.pplx (fallbackEnriched atob prompt context) system]) := by
    simp [callGeneration, show ("" : String).isEmpty = true from rfl]
  refine ⟨heq, ?_, ?_⟩
  · intro c hc
    rw [heq] at hc
    simp only [List.mem_singleton] at hc
    subst hc
    rfl
  · intro t ht
    rw [heq, ht]

theorem claim_C2_witness :
    callGeneration (fun _ => none) (Except.error "Claude API error (401): bad key")
        (Except.ok "pplx text") "P" "S" "k" "p" none =
      (Except.ok "pplx text",
       [TransportCall.claude (buildClaudeContent (fun _ => none) "P" none) "S",
        TransportCall.pplx (fallbackEnriched (fun _ => none) "P" none) "S"]) :=
  (claim_C2 (fun _ => none) (Except.error "Claude API error (401): bad key")
    (Except.ok "pplx text") "P" "S" "k" "p" none (by decide)).2.1
    "Claude API error (401): bad key" rfl (by decide) (by decide)

theorem claim_C3_witness :
    callGeneration (fun _ => none) (Except.ok "never") (Except.ok "pplx text")
        "P" "S" "" "p" none =
      (Except.ok "pplx text",
       [TransportCall.pplx (fallbackEnriched (fun _ => none) "P" none) "S"]) :=
  (claim_C3 (fun _ => none) (Except.ok "never") (Except.ok "pplx text") "P" "S" "p"
    none (by decide)).1

/-- C9: every domain generation function (`generateTripDetails`,
`generateItinerary`, `generatePackingList`, `chatAboutTrip`,
`searchTravel`) emits exactly one pending activity event at the start and
exactly one terminal event at the end — success on normal return, error on
failure — with the terminal event carrying the same correlation id as the
pending event and an error event's detail equal to the underlying error's
message. -/
theorem claim_C9 :
    (∀ (claudeResp : Except String String) (anthropicKey destination fresh : String),
      eventProtocolOk (generateTripDetails claudeResp anthropicKey destination fresh) = true) ∧
    (∀ (claudeResp : Except String String) (trip : Trip) (anthropicKey fresh : String),
      eventProtocolOk (generateItinerary claudeResp trip anthropicKey fresh) = true) ∧
    (∀ (claudeResp : Except String String) (trip : Trip) (anthropicKey fresh : String),
      eventProtocolOk (generatePackingList claudeResp trip anthropicKey fresh) = true) ∧
    (∀ (claudeResp pplxResp : Except String String) (perplexityKey : String)
        (anthropicKey : Option String) (attachments : Option (List TripContextFile))
        (fresh : String),
      eventProtocolOk (chatAboutTrip claudeResp pplxResp perplexityKey anthropicKey
        attachments fresh) = true) ∧
    (∀ (pplxResp : Except String String) (fresh : String),
      eventProtocolOk (searchTravel pplxResp fresh) = true) := by
  refine ⟨?_, ?_, ?_, ?_, ?_⟩
  · intro claudeResp anthropicKey destination fresh
    rcases h : (callGenerationClaudeOnly claudeResp anthropicKey).bind parseJSON with v | e
    all_goals simp [generateTripDetails, logActivity, h, eventProtocolOk]
  · intro claudeResp trip anthropicKey fresh
    rcases h : (do
        let text ← callGenerationClaudeOnly claudeResp anthropicKey
        let parsed ← parseJSON text
        let days ← asArray parsed
        itineraryPost trip.startDate days : Except String (List JValue)) with v | e
    all_goals simp [generateItinerary, logActivity, h, eventProtocolOk]
  · intro claudeResp trip anthropicKey fresh
    rcases h : (do
        let text ← callGenerationClaudeOnly claudeResp anthropicKey
        let parsed ← parseJSON text
        asArray parsed : Except String (List JValue)) with v | e
    all_goals simp [generatePackingList, logActivity, h, eventProtocolOk]
  · intro claudeResp pplxResp perplexityKey anthropicKey attachments fresh
    rcases h : (if (!(attachments.getD []).isEmpty || perplexityKey.isEmpty) &&
        !(anthropicKey.getD "").isEmpty then claudeResp else pplxResp) with v | e
    all_goals simp only [chatAboutTrip, logActivity]
    all_goals rw [h]
    all_goals simp [eventProtocolOk]
  · intro pplxResp fresh
    rcases pplxResp with v | e
    all_goals simp [searchTravel, logActivity, eventProtocolOk]

/-- C1: on the fenced model reply with prose and a trailing citation
marker, `parseJSON` returns the one-element array of one object with
`id = "1"`:
the fences are stripped, the prose skipped, and the `[1]` citation neither
corrupts the balance count nor is parsed as a second structure. -/
theorem claim_C1 :
    parseJSON "Sure! Here is your data:\n```json\n[\x7b\"id\":\"1\"\x7d]\n```\nSource: [1]" =
      Except.ok (JValue.arr [JValue.obj [("id".data, JValue.str "1".data)]]) := by
  rfl

/-- C4 (amended): for every string `j` that is valid JSON text and contains
no U+2028/U+2029, `parseJSON j` returns exactly the JSON decode of `j`; the
fence regexes and trimming never alter such a document.  (The original,
unrestricted claim fails: the closing-fence regex, three backticks then
whitespace then a multiline end anchor, can fire inside a valid JSON
document when a backtick run is followed by the line terminator U+2028.) -/
theorem claim_C4 (j : String) (v : JValue) (hj : jsonParse j = some v)
    (hu : ∀ x ∈ j.data, x.toNat ≠ 0x2028 ∧ x.toNat ≠ 0x2029) :
    parseJSON j = Except.ok v :=
  parseJSON_of_jsonParse hj hu

theorem claim_C4_witness :
    parseJSON "[1]" = Except.ok (JValue.arr [JValue.num ['1']]) :=
  claim_C4 "[1]" (JValue.arr [JValue.num ['1']]) rfl (by decide)

theorem claim_C4_counterexample :
    jsonParse "\"``` \"" = some (JValue.str ['`', '`', '`', ' ']) ∧
    parseJSON "\"``` \"" = Except.ok (JValue.str [' ']) ∧
    JValue.str [' '] ≠ JValue.str ['`', '`', '`', ' '] := by
  refine ⟨rfl, rfl, ?_⟩
  intro h
  rw [JValue.str.injEq] at h
  exact absurd h (by decide)

/-- C10: whenever the opening bracket at the start index is never balanced
by a matching close bracket outside string literals, `extractBalanced`
returns `none` (it terminates without scanning past the end); and
`parseJSON` on any input either succeeds or raises exactly the user-facing
format error, never any other exception. -/
theorem claim_C10 :
    (∀ (text : String) (start : Nat) (o cl : Char),
      neverBalanced text start o cl → extractBalanced text start o cl = none) ∧
    (∀ raw : String, (∃ v, parseJSON raw = Except.ok v) ∨
      parseJSON raw = Except.error "AI returned an unexpected format. Please try again.") := by
  constructor
  · intro text start o cl h
    exact (extractBalanced_none_iff text start o cl).mpr h
  · intro raw
    exact parseJSON_ok_or_fmtErr raw

theorem claim_C10_witness :
    extractBalanced "[\x7b\"a\": 1" 0 '[' ']' = none ∧
    ((∃ v, parseJSON "[\x7b\"a\": 1" = Except.ok v) ∨
      parseJSON "[\x7b\"a\": 1" =
        Except.error "AI returned an unexpected format. Please try again.") :=
  ⟨claim_C10.1 "[\x7b\"a\": 1" 0 '[' ']' (by rfl), claim_C10.2 "[\x7b\"a\": 1"⟩

end Wandr
